import Mathlib

set_option maxHeartbeats 1000000

namespace Bitstore

/-- Raw byte storage: the contents of a Python `bytearray` (or of a file),
one natural number per byte. -/
abbrev Bytes := List Nat

/-- Every stored byte is below 256, which Python's `bytearray` (and file
reads) guarantee structurally. -/
def okBytes (d : Bytes) : Prop := ∀ b ∈ d, b < 256

instance : DecidablePred okBytes := fun d => List.decidableBAll _ d

/-- Python list read `d[i]`: a negative index counts from the end of the
list.  An out-of-range read raises IndexError in Python; the model returns 0
there, and every theorem below only reads in range. -/
def pyGet (d : Bytes) (i : Int) : Nat :=
  if i < 0 then d.getD (i + d.length).toNat 0 else d.getD i.toNat 0

/-- Python list write `d[i] = v`, with the same negative-index convention;
an out-of-range write leaves the list unchanged. -/
def pySet (d : Bytes) (i : Int) (v : Nat) : Bytes :=
  if i < 0 then d.set (i + d.length).toNat v else d.set i.toNat v

/-- Python `x % 8` on a possibly negative `x` (used by `prependarray`);
the result is always in `[0, 8)`. -/
def pymod8 (x : Int) : Nat := (x % 8).toNat

/-- In-memory buffer: `ConstByteArray` / `ByteArray` of bitstore.py.  It
stores raw bytes together with a bit offset and a bit length.  Mutating
methods are modelled as functions returning the updated record. -/
structure ByteArray where
  rawarray : Bytes
  bitlength : Nat
  offset : Nat
deriving DecidableEq

namespace ByteArray

def byteoffset (s : ByteArray) : Nat := s.offset / 8

/-- The `bytelength` property.  The Python `eb == -1` branch is unreachable
for nonnegative offsets and is dropped. -/
def bytelength (s : ByteArray) : Nat :=
  if s.bitlength = 0 then 0
  else (s.offset + s.bitlength - 1) / 8 - s.offset / 8 + 1

/-- `getbit`: the `assert 0 <= pos < bitlength` appears as a hypothesis of
the theorems about it. -/
def getbit (s : ByteArray) (pos : Nat) : Bool :=
  (s.rawarray.getD ((s.offset + pos) / 8) 0) &&& (128 >>> ((s.offset + pos) % 8)) != 0

def getbyte (s : ByteArray) (pos : Int) : Nat :=
  pyGet s.rawarray (pos + s.byteoffset)

def getbyteslice (s : ByteArray) (start stop : Nat) : Bytes :=
  (s.rawarray.drop (start + s.byteoffset)).take (stop - start)

/-- `__copy__`: duplicates the raw bytes (contents identical, storage
fresh; freshness is modelled separately by the store-level functions). -/
def copy (s : ByteArray) : ByteArray := ⟨s.rawarray, s.bitlength, s.offset⟩

def setbit (s : ByteArray) (pos : Nat) : ByteArray :=
  let byte := (s.offset + pos) / 8
  let bit := (s.offset + pos) % 8
  { s with rawarray := s.rawarray.set byte (s.rawarray.getD byte 0 ||| (128 >>> bit)) }

/-- `unsetbit`: Python `v &= ~(128 >> bit)`; on naturals clearing a single
bit is subtracting its masked value. -/
def unsetbit (s : ByteArray) (pos : Nat) : ByteArray :=
  let byte := (s.offset + pos) / 8
  let bit := (s.offset + pos) % 8
  { s with rawarray :=
      s.rawarray.set byte (s.rawarray.getD byte 0 - (s.rawarray.getD byte 0 &&& (128 >>> bit))) }

def invertbit (s : ByteArray) (pos : Nat) : ByteArray :=
  let byte := (s.offset + pos) / 8
  let bit := (s.offset + pos) % 8
  { s with rawarray := s.rawarray.set byte (s.rawarray.getD byte 0 ^^^ (128 >>> bit)) }

def setbyte (s : ByteArray) (pos : Int) (value : Nat) : ByteArray :=
  { s with rawarray := pySet s.rawarray (pos + s.byteoffset) value }

/-- `setbyteslice`: Python slice assignment `raw[start+bo : stop+bo] = value`. -/
def setbyteslice (s : ByteArray) (start stop : Nat) (value : Bytes) : ByteArray :=
  { s with rawarray :=
      (s.rawarray.take (start + s.byteoffset) ++ value) ++ s.rawarray.drop (stop + s.byteoffset) }

end ByteArray

/-- The recoverable construction failure raised by `FileArray.__init__`. -/
inductive CreationError
  | fileTooShort
deriving DecidableEq

/-- File-backed buffer: the file's bytes plus the window geometry computed
once at construction.  Each seek+read is modelled as indexing the contents. -/
structure FileArray where
  source : Bytes
  bytelength : Nat
  bitlength : Nat
  byteoffset : Nat
  offset : Nat
deriving DecidableEq

namespace FileArray

/-- `FileArray.__init__`.  A `none` bitlength means rest-of-file.  The Int
arithmetic mirrors Python; `toNat` only clamps in the degenerate
offset-beyond-end-of-file rest-of-file case, which no claim touches. -/
def init (source : Bytes) (bitlength : Option Nat) (offset : Nat) :
    Except CreationError FileArray :=
  let byteoffset := offset / 8
  let bitoffset := offset % 8
  let filelength := source.length
  match bitlength with
  | none =>
      let bytelen : Int := (filelength : Int) - byteoffset
      let bitlen : Int := bytelen * 8 - bitoffset
      if bytelen > (filelength : Int) - byteoffset then .error .fileTooShort
      else .ok ⟨source, bytelen.toNat, bitlen.toNat, byteoffset, bitoffset⟩
  | some bl =>
      let bytelen := (bl + bitoffset + 7) / 8
      if (bytelen : Int) > (filelength : Int) - byteoffset then .error .fileTooShort
      else .ok ⟨source, bytelen, bl, byteoffset, bitoffset⟩

def getbyte (f : FileArray) (pos : Int) : Nat :=
  let pos1 := if pos < 0 then pos + f.bytelength else pos
  let pos2 := pos1 + f.byteoffset
  f.source.getD pos2.toNat 0

/-- `__getitem__`: adds `byteoffset` on top of `getbyte`, which adds it
again.  This double shift is the divergence behind several claims. -/
def getitem (f : FileArray) (pos : Int) : Nat := f.getbyte (pos + f.byteoffset)

def getbit (f : FileArray) (pos : Nat) : Bool :=
  (f.source.getD ((f.offset + pos) / 8 + f.byteoffset) 0) &&& (128 >>> ((f.offset + pos) % 8)) != 0

def getbyteslice (f : FileArray) (start stop : Nat) : Bytes :=
  if start < stop then (f.source.drop (start + f.byteoffset)).take (stop - start) else []

def rawbytes (f : FileArray) : Bytes := f.getbyteslice 0 f.bytelength

/-- `FileArray.__copy__` materializes the window as a mutable in-memory
buffer. -/
def copy (f : FileArray) : ByteArray := ⟨f.rawbytes, f.bitlength, f.offset⟩

end FileArray

/-- A buffer of either backing representation, for the free functions that
accept both. -/
inductive Buf
  | mem (a : ByteArray)
  | file (f : FileArray)
deriving DecidableEq

namespace Buf

def bitlength : Buf → Nat
  | .mem a => a.bitlength
  | .file f => f.bitlength

def offset : Buf → Nat
  | .mem a => a.offset
  | .file f => f.offset

def byteoffset : Buf → Nat
  | .mem a => a.byteoffset
  | .file f => f.byteoffset

def bytelength : Buf → Nat
  | .mem a => a.bytelength
  | .file f => f.bytelength

/-- The value of an in-range `d[x]` subscript in `equal` for a pair of
same-representation buffers: for two in-memory buffers the shared
`try` succeeds and `d` is the buffer's `_rawarray`; for two file-backed
buffers it is the buffer object, so `d[x]` goes through `__getitem__`.
This is only the value read: the Python error behaviour of the binding
and of the subscripts (a mixed pair leaves a non-subscriptable in-memory
object bound, and out-of-range reads raise) is modelled separately by
`dbind`, `DRef.read` and `equalE` below, and the `Bool` comparison built
on this indexer is applied only to same-representation pairs whose reads
stay in range. -/
def d : Buf → Nat → Nat
  | .mem a, i => a.rawarray.getD i 0
  | .file f, i => f.getitem i

def getbit : Buf → Nat → Bool
  | .mem a, p => a.getbit p
  | .file f, p => f.getbit p

/-- The `da is db` storage-identity fast path of `equal`, modelled
structurally (it can only fire where the bit contents agree anyway). -/
def dataIs : Buf → Buf → Bool
  | .mem a, .mem b => a.rawarray == b.rawarray
  | .file f, .file g => f == g
  | _, _ => false

end Buf

/-- `slice` on an in-memory source (the `try` branch): shares storage and
adds the offsets. -/
def slice (ba : ByteArray) (bitlength offset : Nat) : ByteArray :=
  ⟨ba.rawarray, bitlength, ba.offset + offset⟩

/-- `offsetcopy` on an in-memory source (`d = s._rawarray`).  The
`assert 0 <= newoffset < 8` preconditions appear as hypotheses of the
theorems about it. -/
def offsetcopy (s : ByteArray) (newoffset : Nat) : ByteArray :=
  if s.bitlength = 0 then s.copy
  else
    let d := s.rawarray
    if newoffset = s.offset % 8 then
      ⟨s.getbyteslice 0 s.bytelength, s.bitlength, newoffset⟩
    else if newoffset < s.offset % 8 then
      let shiftleft := s.offset % 8 - newoffset
      let main := (List.range' s.byteoffset (s.bytelength - 1)).map fun x =>
        ((d.getD x 0 <<< shiftleft) &&& 0xff) + (d.getD (x + 1) 0 >>> (8 - shiftleft))
      let bilb0 := (s.offset + s.bitlength) % 8
      let bilb := if bilb0 = 0 then 8 else bilb0
      let newdata := if bilb > shiftleft
        then main ++ [(d.getD (s.byteoffset + s.bytelength - 1) 0 <<< shiftleft) &&& 0xff]
        else main
      ⟨newdata, s.bitlength, newoffset⟩
    else
      let shiftright := newoffset - s.offset % 8
      let first := s.getbyte 0 >>> shiftright
      let main := (List.range' 1 (s.bytelength - 1)).map fun x =>
        ((d.getD (x - 1) 0 <<< (8 - shiftright)) &&& 0xff) + (d.getD x 0 >>> shiftright)
      let bilb0 := (s.offset + s.bitlength) % 8
      let bilb := if bilb0 = 0 then 8 else bilb0
      let newdata := if bilb + shiftright > 8
        then (first :: main) ++ [(d.getD (s.byteoffset + s.bytelength - 1) 0 <<< (8 - shiftright)) &&& 0xff]
        else first :: main
      ⟨newdata, s.bitlength, newoffset⟩

/-- `offsetcopy` on a file-backed source: `d = s`, so every `d[x]` goes
through `__getitem__`. -/
def offsetcopyFile (s : FileArray) (newoffset : Nat) : ByteArray :=
  if s.bitlength = 0 then s.copy
  else
    if newoffset = s.offset % 8 then
      ⟨s.getbyteslice 0 s.bytelength, s.bitlength, newoffset⟩
    else if newoffset < s.offset % 8 then
      let shiftleft := s.offset % 8 - newoffset
      let main := (List.range' s.byteoffset (s.bytelength - 1)).map fun x =>
        ((s.getitem x <<< shiftleft) &&& 0xff) + (s.getitem (x + 1) >>> (8 - shiftleft))
      let bilb0 := (s.offset + s.bitlength) % 8
      let bilb := if bilb0 = 0 then 8 else bilb0
      let newdata := if bilb > shiftleft
        then main ++ [(s.getitem (s.byteoffset + s.bytelength - 1) <<< shiftleft) &&& 0xff]
        else main
      ⟨newdata, s.bitlength, newoffset⟩
    else
      let shiftright := newoffset - s.offset % 8
      let first := s.getbyte 0 >>> shiftright
      let main := (List.range' 1 (s.bytelength - 1)).map fun x =>
        ((s.getitem ((x : Int) - 1) <<< (8 - shiftright)) &&& 0xff) + (s.getitem x >>> shiftright)
      let bilb0 := (s.offset + s.bitlength) % 8
      let bilb := if bilb0 = 0 then 8 else bilb0
      let newdata := if bilb + shiftright > 8
        then (first :: main) ++ [(s.getitem (s.byteoffset + s.bytelength - 1) <<< (8 - shiftright)) &&& 0xff]
        else first :: main
      ⟨newdata, s.bitlength, newoffset⟩

/-- `ByteArray.appendarray` with an in-memory argument.  `pop()` of an empty
bytearray (an IndexError in Python) is modelled as `none`. -/
def appendarray (self array0 : ByteArray) : Option ByteArray :=
  if array0.bitlength = 0 then some self
  else
    let array := offsetcopy array0 ((self.offset + self.bitlength) % 8)
    if array.offset ≠ 0 then
      match self.rawarray.getLast? with
      | none => none
      | some last =>
          let joinval := (last &&& (255 ^^^ (255 >>> array.offset))) |||
                         (array.getbyte 0 &&& (255 >>> array.offset))
          some ⟨(self.rawarray.dropLast ++ [joinval]) ++ array.rawarray.drop 1,
                self.bitlength + array.bitlength, self.offset⟩
    else
      some ⟨self.rawarray ++ array.rawarray, self.bitlength + array.bitlength, self.offset⟩

/-- `ByteArray.prependarray` with an in-memory argument.  Reading
`_rawarray[0]` of an empty bytearray (IndexError) is modelled as `none`;
the realignment `assert` holds whenever `self.offset < 8` and is dropped. -/
def prependarray (self array0 : ByteArray) : Option ByteArray :=
  if array0.bitlength = 0 then some self
  else
    let array := offsetcopy array0 (pymod8 ((self.offset : Int) - array0.bitlength))
    if self.offset ≠ 0 then
      match self.rawarray with
      | [] => none
      | b0 :: _ =>
          let array2 := array.setbyte (-1)
            ((array.getbyte (-1) &&& (255 ^^^ (255 >>> self.offset))) |||
             (b0 &&& (255 >>> self.offset)))
          some ⟨array2.rawarray ++ (self.rawarray.drop 1).take (self.bytelength - 1),
                self.bitlength + array.bitlength, array.offset⟩
    else
      some ⟨array.rawarray ++ self.rawarray.take self.bytelength,
            self.bitlength + array.bitlength, array.offset⟩

/-- The body of `equal` after the swap making `a` the buffer with the
smaller bit offset, as the pure value it computes when every subscript
succeeds — i.e. for a pair of same-representation buffers whose reads
stay in range (`equalE` below models the binding and error behaviour;
the theorems apply this `Bool` version only under those conditions).
Early `return`s become nested ifs; the internal `assert`s hold on every
input the theorems below feed it and are dropped. -/
def equalCore (a b : Buf) : Bool :=
  let a_bitlength := a.bitlength
  let b_bitlength := b.bitlength
  let a_bitoff := a.offset % 8
  let b_bitoff := b.offset % 8
  let a_byteoffset := a.byteoffset
  let b_byteoffset := b.byteoffset
  let a_bytelength := a.bytelength
  let b_bytelength := b.bytelength
  if a.dataIs b ∧ a.offset = b.offset then true
  else if a_bitoff = b_bitoff then
    let bsp0 := 8 - (a_bitoff + a_bitlength) % 8
    let bits_spare_in_last_byte := if bsp0 = 8 then 0 else bsp0
    if a_bytelength = 1 then
      let a_val := ((a.d a_byteoffset <<< a_bitoff) &&& 0xff) >>> (8 - a_bitlength)
      let b_val := ((b.d b_byteoffset <<< b_bitoff) &&& 0xff) >>> (8 - b_bitlength)
      a_val == b_val
    else if a.d a_byteoffset &&& (0xff >>> a_bitoff) ≠ b.d b_byteoffset &&& (0xff >>> b_bitoff) then
      false
    else if ¬ ((List.range' (1 + a_byteoffset) (a_bytelength - 2)).all fun x =>
        a.d x == b.d (b_byteoffset + (x - a_byteoffset))) then
      false
    else if a.d (a_byteoffset + a_bytelength - 1) >>> bits_spare_in_last_byte ≠
        b.d (b_byteoffset + b_bytelength - 1) >>> bits_spare_in_last_byte then
      false
    else true
  else
    let shift := b_bitoff - a_bitoff
    if b_bytelength = 1 then
      let a_val := ((a.d a_byteoffset <<< a_bitoff) &&& 0xff) >>> (8 - a_bitlength)
      let b_val := ((b.d b_byteoffset <<< b_bitoff) &&& 0xff) >>> (8 - b_bitlength)
      a_val == b_val
    else if a_bytelength = 1 then
      let a_val := ((a.d a_byteoffset <<< a_bitoff) &&& 0xff) >>> (8 - a_bitlength)
      let b_val := ((((b.d b_byteoffset <<< 8) + b.d (b_byteoffset + 1)) <<< b_bitoff) &&& 0xffff)
        >>> (16 - b_bitlength)
      a_val == b_val
    else if (a.d a_byteoffset &&& (0xff >>> a_bitoff)) >>> shift ≠
        b.d b_byteoffset &&& (0xff >>> b_bitoff) then
      false
    else if ¬ ((List.range' 1 (b_bytelength - 2)).all fun x =>
        (((a.d (a_byteoffset + x - 1) <<< 8) + a.d (a_byteoffset + x)) >>> shift) &&& 0xff ==
          b.d (b_byteoffset + x)) then
      false
    else
      let fb0 := (b.offset + b_bitlength) % 8
      let final_b_bits := if fb0 = 0 then 8 else fb0
      let b_val := b.d (b_byteoffset + b_bytelength - 1) >>> (8 - final_b_bits)
      let fa0 := (a.offset + a_bitlength) % 8
      let final_a_bits := if fa0 = 0 then 8 else fa0
      if b.bytelength > a_bytelength then
        let a_val := (a.d (a_byteoffset + a_bytelength - 1) >>> (8 - final_a_bits)) &&&
          (0xff >>> (8 - final_b_bits))
        a_val == b_val
      else
        let a_val := (((a.d (a_byteoffset + a_bytelength - 2) <<< 8) +
            a.d (a_byteoffset + a_bytelength - 1)) >>> (8 - final_a_bits)) &&&
          (0xff >>> (8 - final_b_bits))
        a_val == b_val

/-- `equal` from bitstore.py: the length checks, then the comparison body
with the operands ordered so the first has the smaller bit offset.  Like
`equalCore`, this is the value computed when every subscript succeeds; the
theorems apply it only to same-representation pairs whose reads stay in
range.  `equalE` below is the same function with Python's binding and
error behaviour. -/
def equal (a0 b0 : Buf) : Bool :=
  if a0.bitlength ≠ b0.bitlength then false
  else if a0.bitlength = 0 then true
  else if a0.offset % 8 > b0.offset % 8 then equalCore b0 a0
  else equalCore a0 b0

/-! ### `equal` with Python's error behaviour

`equal` binds `da` and `db` in a single `try` block: if either buffer
lacks `_rawarray` (the file-backed class does not have that slot), the
`except` rebinds *both* names to the buffer objects.  Only `FileArray`
defines `__getitem__`, so on a mixed file/in-memory pair the in-memory
buffer object stays bound and its first subscript raises `TypeError`.
A bytearray subscript out of range raises `IndexError`, and `getbyte` on
a file position past the end of the file reads no byte, so `ord` raises
`TypeError`.  `equalE` is `equal` with these error paths. -/

inductive PyErr
  | typeError
  | indexError
deriving DecidableEq

/-- What the names `da` and `db` hold after the `try/except`: the two raw
bytearrays when both buffers expose `_rawarray`, otherwise both buffer
objects. -/
inductive DRef
  | raw (d : Bytes)
  | obj (b : Buf)

def dbind : Buf → Buf → DRef × DRef
  | .mem a, .mem b => (.raw a.rawarray, .raw b.rawarray)
  | a, b => (.obj a, .obj b)

/-- `__getitem__` on a file-backed buffer at a nonnegative index:
`getbyte(pos + byteoffset)` adds `byteoffset` again and reads the file,
and a seek past the end of the file makes `read(1)` return no byte, so
`ord` raises `TypeError`. -/
def FileArray.getitemE (f : FileArray) (pos : Nat) : Except PyErr Nat :=
  if pos + f.byteoffset + f.byteoffset < f.source.length
  then .ok (f.source.getD (pos + f.byteoffset + f.byteoffset) 0)
  else .error .typeError

/-- A subscript of the bound name: a bytearray indexes with `IndexError`
out of range; the in-memory buffer classes define no `__getitem__`, so
subscripting the object itself raises `TypeError`; the file class
subscripts through `__getitem__`. -/
def DRef.read : DRef → Nat → Except PyErr Nat
  | .raw d, i => if i < d.length then .ok (d.getD i 0) else .error .indexError
  | .obj (.mem _), _ => .error .typeError
  | .obj (.file f), i => f.getitemE i

/-- `equal` from bitstore.py with Python's binding and error behaviour:
the same statements in the same evaluation order, every subscript going
through `DRef.read`.  The `da is db` identity test is modelled
structurally as in `equalCore`; for a mixed pair the two objects are
never identical, so there the modelling is exact. -/
def equalE (a0 b0 : Buf) : Except PyErr Bool := do
  let a_bitlength := a0.bitlength
  let b_bitlength := b0.bitlength
  if a_bitlength ≠ b_bitlength then return false
  if a_bitlength = 0 then return true
  let (a, b) := if a0.offset % 8 > b0.offset % 8 then (b0, a0) else (a0, b0)
  let a_bitoff := a.offset % 8
  let b_bitoff := b.offset % 8
  let a_byteoffset := a.byteoffset
  let b_byteoffset := b.byteoffset
  let a_bytelength := a.bytelength
  let b_bytelength := b.bytelength
  let (da, db) := dbind a b
  if a.dataIs b ∧ a.offset = b.offset then return true
  if a_bitoff = b_bitoff then
    let bsp0 := 8 - (a_bitoff + a_bitlength) % 8
    let bits_spare_in_last_byte := if bsp0 = 8 then 0 else bsp0
    if a_bytelength = 1 then
      let av ← da.read a_byteoffset
      let bv ← db.read b_byteoffset
      let a_val := ((av <<< a_bitoff) &&& 0xff) >>> (8 - a_bitlength)
      let b_val := ((bv <<< b_bitoff) &&& 0xff) >>> (8 - b_bitlength)
      return a_val == b_val
    let af ← da.read a_byteoffset
    let bf ← db.read b_byteoffset
    if af &&& (0xff >>> a_bitoff) ≠ bf &&& (0xff >>> b_bitoff) then return false
    for x in List.range' (1 + a_byteoffset) (a_bytelength - 2) do
      let ax ← da.read x
      let bx ← db.read (b_byteoffset + (x - a_byteoffset))
      if ax ≠ bx then return false
    let alast ← da.read (a_byteoffset + a_bytelength - 1)
    let blast ← db.read (b_byteoffset + b_bytelength - 1)
    if alast >>> bits_spare_in_last_byte ≠ blast >>> bits_spare_in_last_byte then return false
    return true
  else
    let shift := b_bitoff - a_bitoff
    if b_bytelength = 1 then
      let av ← da.read a_byteoffset
      let bv ← db.read b_byteoffset
      let a_val := ((av <<< a_bitoff) &&& 0xff) >>> (8 - a_bitlength)
      let b_val := ((bv <<< b_bitoff) &&& 0xff) >>> (8 - b_bitlength)
      return a_val == b_val
    if a_bytelength = 1 then
      let av ← da.read a_byteoffset
      let a_val := ((av <<< a_bitoff) &&& 0xff) >>> (8 - a_bitlength)
      let b0v ← db.read b_byteoffset
      let b1v ← db.read (b_byteoffset + 1)
      let b_val := ((((b0v <<< 8) + b1v) <<< b_bitoff) &&& 0xffff) >>> (16 - b_bitlength)
      return a_val == b_val
    let af ← da.read a_byteoffset
    let bf ← db.read b_byteoffset
    if (af &&& (0xff >>> a_bitoff)) >>> shift ≠ bf &&& (0xff >>> b_bitoff) then return false
    for x in List.range' 1 (b_bytelength - 2) do
      let bx ← db.read (b_byteoffset + x)
      let ax1 ← da.read (a_byteoffset + x - 1)
      let ax2 ← da.read (a_byteoffset + x)
      if (((ax1 <<< 8) + ax2) >>> shift) &&& 0xff ≠ bx then return false
    let fb0 := (b.offset + b_bitlength) % 8
    let final_b_bits := if fb0 = 0 then 8 else fb0
    let blv ← db.read (b_byteoffset + b_bytelength - 1)
    let b_val := blv >>> (8 - final_b_bits)
    let fa0 := (a.offset + a_bitlength) % 8
    let final_a_bits := if fa0 = 0 then 8 else fa0
    if b.bytelength > a_bytelength then
      let alv ← da.read (a_byteoffset + a_bytelength - 1)
      let a_val := (alv >>> (8 - final_a_bits)) &&& (0xff >>> (8 - final_b_bits))
      return a_val == b_val
    else
      let a1 ← da.read (a_byteoffset + a_bytelength - 2)
      let a2 ← da.read (a_byteoffset + a_bytelength - 1)
      let a_val := (((a1 <<< 8) + a2) >>> (8 - final_a_bits)) &&& (0xff >>> (8 - final_b_bits))
      return a_val == b_val

/-! ### Storage-identity model

Python bytearrays are heap objects: several buffers can alias one, while
`offsetcopy` builds a fresh bytearray on every code path (`[:]`-copy in the
degenerate case, slicing in the fast path, `bytearray(newdata)` in both
shift paths).  The store maps cell indices to byte contents; a handle
references its storage cell by index, so storage identity is the cell
index. -/

structure Store where
  cells : List Bytes
deriving DecidableEq

/-- A `ByteArray` whose raw storage lives in a store cell. -/
structure HByteArray where
  ref : Nat
  bitlength : Nat
  offset : Nat
deriving DecidableEq

def Store.read (st : Store) (r : Nat) : Bytes := st.cells.getD r []

def Store.write (st : Store) (r : Nat) (v : Bytes) : Store := ⟨st.cells.set r v⟩

def Store.alloc (st : Store) (v : Bytes) : Store := ⟨st.cells ++ [v]⟩

/-- The plain buffer a handle denotes in a store. -/
def derefH (st : Store) (h : HByteArray) : ByteArray := ⟨st.read h.ref, h.bitlength, h.offset⟩

/-- `offsetcopy` at store level: every Python path allocates a fresh
bytearray, so the result lives in a new cell. -/
def offsetcopyH (st : Store) (s : HByteArray) (n : Nat) : Store × HByteArray :=
  let r := offsetcopy (derefH st s) n
  (st.alloc r.rawarray, ⟨st.cells.length, r.bitlength, r.offset⟩)

/-- `offsetcopy` of a file-backed source also materializes a fresh cell;
the file itself is immutable data outside the store. -/
def offsetcopyFileH (st : Store) (f : FileArray) (n : Nat) : Store × HByteArray :=
  let r := offsetcopyFile f n
  (st.alloc r.rawarray, ⟨st.cells.length, r.bitlength, r.offset⟩)

def setbitH (st : Store) (s : HByteArray) (pos : Nat) : Store :=
  st.write s.ref ((derefH st s).setbit pos).rawarray

def unsetbitH (st : Store) (s : HByteArray) (pos : Nat) : Store :=
  st.write s.ref ((derefH st s).unsetbit pos).rawarray

def invertbitH (st : Store) (s : HByteArray) (pos : Nat) : Store :=
  st.write s.ref ((derefH st s).invertbit pos).rawarray

def setbyteH (st : Store) (s : HByteArray) (pos : Int) (v : Nat) : Store :=
  st.write s.ref ((derefH st s).setbyte pos v).rawarray

def setbytesliceH (st : Store) (s : HByteArray) (start stop : Nat) (v : Bytes) : Store :=
  st.write s.ref ((derefH st s).setbyteslice start stop v).rawarray

/-- `appendarray` mutates `self`'s own cell in place
(`pop`/`append`/`extend`); its `offsetcopy` temporary is garbage. -/
def appendarrayH (st : Store) (self other : HByteArray) : Option (Store × HByteArray) :=
  match appendarray (derefH st self) (derefH st other) with
  | none => none
  | some r => some (st.write self.ref r.rawarray, ⟨self.ref, r.bitlength, r.offset⟩)

/-- `prependarray` builds the result inside the fresh cell allocated by its
`offsetcopy` and re-points `self` at it (the old cell is left behind); when
`other` is empty nothing happens at all. -/
def prependarrayH (st : Store) (self other : HByteArray) : Option (Store × HByteArray) :=
  if (derefH st other).bitlength = 0 then some (st, self)
  else
    match prependarray (derefH st self) (derefH st other) with
    | none => none
    | some r => some (st.alloc r.rawarray, ⟨st.cells.length, r.bitlength, r.offset⟩)

/-! ### Bit-stream semantics

A buffer denotes the bit sequence `bitval`/`extractN` reads off its raw
storage: bit `i` of a byte stream lives in byte `i / 8` at MSB-first
position `i % 8`. -/

/-- Bit `i` of a byte stream (MSB-first within each byte), as 0 or 1. -/
def bitval (d : Bytes) (i : Nat) : Nat := (d.getD (i / 8) 0 >>> (7 - i % 8)) &&& 1

/-- The natural number formed by `n` consecutive bits of stream `d` starting
at bit position `s`, most significant bit first. -/
def extractN (d : Bytes) (s : Nat) : Nat → Nat
  | 0 => 0
  | n + 1 => 2 * extractN d s n + bitval d (s + n)

lemma bitval_le_one (d : Bytes) (i : Nat) : bitval d i ≤ 1 := Nat.and_le_right

lemma extractN_succ (d : Bytes) (s n : Nat) :
    extractN d s (n + 1) = 2 * extractN d s n + bitval d (s + n) := rfl

lemma extractN_one (d : Bytes) (s : Nat) : extractN d s 1 = bitval d s := by
  simp [extractN]

lemma extractN_lt (d : Bytes) (s n : Nat) : extractN d s n < 2 ^ n := by
  induction n with
  | zero => simp [extractN]
  | succ n ih =>
      have h1 := bitval_le_one d (s + n)
      have h2 : (2 : Nat) ^ (n + 1) = 2 * 2 ^ n := by ring
      simp only [extractN]
      omega

lemma extractN_split (d : Bytes) (s m k : Nat) :
    extractN d s (m + k) = extractN d s m * 2 ^ k + extractN d (s + m) k := by
  induction k with
  | zero => simp [extractN]
  | succ k ih =>
      have h1 : m + (k + 1) = (m + k) + 1 := by omega
      rw [h1, extractN_succ, ih, extractN_succ]
      have h2 : s + (m + k) = s + m + k := by omega
      rw [h2, pow_succ]
      ring

lemma extractN_div (d : Bytes) (s m k : Nat) :
    extractN d s (m + k) / 2 ^ k = extractN d s m := by
  rw [extractN_split, Nat.mul_comm (extractN d s m) (2 ^ k),
    Nat.mul_add_div (Nat.two_pow_pos k), Nat.div_eq_of_lt (extractN_lt d (s + m) k),
    Nat.add_zero]

lemma extractN_mod (d : Bytes) (s m k : Nat) :
    extractN d s (m + k) % 2 ^ k = extractN d (s + m) k := by
  rw [extractN_split, Nat.mul_comm (extractN d s m) (2 ^ k), Nat.mul_add_mod,
    Nat.mod_eq_of_lt (extractN_lt d (s + m) k)]

lemma extractN_bit (d : Bytes) (s n j : Nat) (hj : j < n) :
    extractN d s n / 2 ^ (n - j - 1) % 2 = bitval d (s + j) := by
  obtain ⟨k, hk⟩ : ∃ k, n = (j + 1) + k := ⟨n - j - 1, by omega⟩
  subst hk
  have h2 : j + 1 + k - j - 1 = k := by omega
  rw [h2, extractN_div]
  have h3 := extractN_mod d s j 1
  simpa [extractN] using h3

lemma bitval_eq_of_extractN_eq {d1 d2 : Bytes} {s1 s2 n : Nat}
    (h : extractN d1 s1 n = extractN d2 s2 n) {j : Nat} (hj : j < n) :
    bitval d1 (s1 + j) = bitval d2 (s2 + j) := by
  rw [← extractN_bit d1 s1 n j hj, h, extractN_bit d2 s2 n j hj]

lemma extractN_eq_of_bitval_eq {d1 d2 : Bytes} {s1 s2 : Nat} (n : Nat)
    (h : ∀ j, j < n → bitval d1 (s1 + j) = bitval d2 (s2 + j)) :
    extractN d1 s1 n = extractN d2 s2 n := by
  induction n with
  | zero => rfl
  | succ n ih =>
      simp only [extractN]
      rw [ih (fun j hj => h j (by omega)), h n (by omega)]

lemma bitval_byte (d : Bytes) (i j : Nat) (hj : j < 8) :
    bitval d (8 * i + j) = (d.getD i 0 >>> (7 - j)) &&& 1 := by
  unfold bitval
  have h1 : (8 * i + j) / 8 = i := by omega
  have h2 : (8 * i + j) % 8 = j := by omega
  rw [h1, h2]

lemma byte_extractN (d : Bytes) (i : Nat) (hb : d.getD i 0 < 256) :
    extractN d (8 * i) 8 = d.getD i 0 := by
  have e : ∀ j, j < 8 → bitval d (8 * i + j) = d.getD i 0 / 2 ^ (7 - j) % 2 := by
    intro j hj
    rw [bitval_byte d i j hj, Nat.shiftRight_eq_div_pow, Nat.and_one_is_mod]
  have e8 : extractN d (8 * i) 8 = 2 * extractN d (8 * i) 7 + bitval d (8 * i + 7) :=
    extractN_succ d (8 * i) 7
  have e7 : extractN d (8 * i) 7 = 2 * extractN d (8 * i) 6 + bitval d (8 * i + 6) :=
    extractN_succ d (8 * i) 6
  have e6 : extractN d (8 * i) 6 = 2 * extractN d (8 * i) 5 + bitval d (8 * i + 5) :=
    extractN_succ d (8 * i) 5
  have e5 : extractN d (8 * i) 5 = 2 * extractN d (8 * i) 4 + bitval d (8 * i + 4) :=
    extractN_succ d (8 * i) 4
  have e4 : extractN d (8 * i) 4 = 2 * extractN d (8 * i) 3 + bitval d (8 * i + 3) :=
    extractN_succ d (8 * i) 3
  have e3 : extractN d (8 * i) 3 = 2 * extractN d (8 * i) 2 + bitval d (8 * i + 2) :=
    extractN_succ d (8 * i) 2
  have e2 : extractN d (8 * i) 2 = 2 * extractN d (8 * i) 1 + bitval d (8 * i + 1) :=
    extractN_succ d (8 * i) 1
  have e1 : extractN d (8 * i) 1 = 2 * extractN d (8 * i) 0 + bitval d (8 * i + 0) :=
    extractN_succ d (8 * i) 0
  have e0 : extractN d (8 * i) 0 = 0 := rfl
  have b7 : bitval d (8 * i + 7) = d.getD i 0 / 1 % 2 := by
    rw [e 7 (by norm_num)]; norm_num
  have b6 : bitval d (8 * i + 6) = d.getD i 0 / 2 % 2 := by
    rw [e 6 (by norm_num)]; norm_num
  have b5 : bitval d (8 * i + 5) = d.getD i 0 / 4 % 2 := by
    rw [e 5 (by norm_num)]; norm_num
  have b4 : bitval d (8 * i + 4) = d.getD i 0 / 8 % 2 := by
    rw [e 4 (by norm_num)]; norm_num
  have b3 : bitval d (8 * i + 3) = d.getD i 0 / 16 % 2 := by
    rw [e 3 (by norm_num)]; norm_num
  have b2 : bitval d (8 * i + 2) = d.getD i 0 / 32 % 2 := by
    rw [e 2 (by norm_num)]; norm_num
  have b1 : bitval d (8 * i + 1) = d.getD i 0 / 64 % 2 := by
    rw [e 1 (by norm_num)]; norm_num
  have b0 : bitval d (8 * i + 0) = d.getD i 0 / 128 % 2 := by
    rw [e 0 (by norm_num)]; norm_num
  omega

/-- The workhorse for reading single bits out of an algorithmically built
byte: if byte `v` contains the field `extractN d t w` at shift `z` (with
arbitrary higher bits `q` and lower bits `r`), then its MSB-first bit `j`
inside the field window is the corresponding stream bit. -/
lemma field_bit {d : Bytes} {t w z q r v : Nat} (hw : w + z ≤ 8) (hr : r < 2 ^ z)
    (hv : v = q * 2 ^ (w + z) + extractN d t w * 2 ^ z + r)
    {j : Nat} (hj1 : 8 - w - z ≤ j) (hj2 : j < 8 - z) :
    (v >>> (7 - j)) &&& 1 = bitval d (t + (j - (8 - w - z))) := by
  have hw1 : 1 ≤ w := by omega
  set j2 := j - (8 - w - z) with hj2def
  have hj2w : j2 < w := by omega
  obtain ⟨m, hm⟩ : ∃ m, w = j2 + 1 + m := ⟨w - j2 - 1, by omega⟩
  have hsplit1 : extractN d t w = extractN d t j2 * 2 ^ (1 + m) + extractN d (t + j2) (1 + m) := by
    have h1 : w = j2 + (1 + m) := by omega
    conv_lhs => rw [h1, extractN_split]
  have hsplit2 : extractN d (t + j2) (1 + m) =
      bitval d (t + j2) * 2 ^ m + extractN d (t + j2 + 1) m := by
    rw [extractN_split, extractN_one]
  set bit := bitval d (t + j2) with hbitdef
  set E1 := extractN d t j2 with hE1def
  set E3 := extractN d (t + j2 + 1) m with hE3def
  have hbit1 : bit ≤ 1 := bitval_le_one _ _
  have hE3lt : E3 < 2 ^ m := extractN_lt _ _ _
  have hD : E3 * 2 ^ z + r < 2 ^ (m + z) := by
    have h1 : E3 * 2 ^ z + r < (E3 + 1) * 2 ^ z := by
      rw [add_mul, one_mul]; omega
    have h2 : (E3 + 1) * 2 ^ z ≤ 2 ^ m * 2 ^ z := Nat.mul_le_mul_right _ (by omega)
    have h3 : (2 : Nat) ^ m * 2 ^ z = 2 ^ (m + z) := (pow_add 2 m z).symm
    omega
  have hvv : v = (2 * (q * 2 ^ j2 + E1) + bit) * 2 ^ (m + z) + (E3 * 2 ^ z + r) := by
    rw [hv, hsplit1, hsplit2]
    have h1 : w + z = j2 + 1 + m + z := by omega
    rw [h1]
    ring
  have hkj : 7 - j = m + z := by omega
  rw [hkj, Nat.shiftRight_eq_div_pow, Nat.and_one_is_mod, hvv,
    Nat.mul_comm (2 * (q * 2 ^ j2 + E1) + bit) (2 ^ (m + z)),
    Nat.mul_add_div (Nat.two_pow_pos (m + z)), Nat.div_eq_of_lt hD, Nat.add_zero]
  omega

/-! ### Byte expressions as bit fields -/

lemma okBytes_getD {d : Bytes} (h : okBytes d) (i : Nat) : d.getD i 0 < 256 := by
  rcases Nat.lt_or_ge i d.length with hi | hi
  · rw [List.getD_eq_getElem?_getD, List.getElem?_eq_getElem hi]
    exact h _ (List.getElem_mem hi)
  · rw [List.getD_eq_getElem?_getD, List.getElem?_eq_none hi]
    norm_num

lemma mask_shiftRight (o : Nat) (ho : o ≤ 8) : 255 >>> o = 2 ^ (8 - o) - 1 := by
  interval_cases o <;> rfl

lemma and_two_pow_sub_one (b n : Nat) : b &&& (2 ^ n - 1) = b % 2 ^ n := by
  apply Nat.eq_of_testBit_eq
  intro i
  simp [Nat.testBit_land, Nat.testBit_two_pow_sub_one, Nat.testBit_mod_two_pow, Bool.and_comm]

lemma and_255 (b : Nat) : b &&& 255 = b % 256 := by
  have h := and_two_pow_sub_one b 8
  norm_num at h
  exact h

lemma and_65535 (b : Nat) : b &&& 65535 = b % 65536 := by
  have h := and_two_pow_sub_one b 16
  norm_num at h
  exact h

/-- Low `8 - o` bits of byte `i` are the stream bits from position `8 i + o`. -/
lemma byte_lo (d : Bytes) (i o : Nat) (hb : d.getD i 0 < 256) (ho : o ≤ 8) :
    d.getD i 0 % 2 ^ (8 - o) = extractN d (8 * i + o) (8 - o) := by
  have h1 : o + (8 - o) = 8 := by omega
  calc d.getD i 0 % 2 ^ (8 - o) = extractN d (8 * i) 8 % 2 ^ (8 - o) := by
        rw [byte_extractN d i hb]
    _ = extractN d (8 * i) (o + (8 - o)) % 2 ^ (8 - o) := by rw [h1]
    _ = extractN d (8 * i + o) (8 - o) := extractN_mod d (8 * i) o (8 - o)

/-- High `8 - k` bits of byte `i` are the stream bits from position `8 i`. -/
lemma byte_hi (d : Bytes) (i k : Nat) (hb : d.getD i 0 < 256) (hk : k ≤ 8) :
    d.getD i 0 / 2 ^ k = extractN d (8 * i) (8 - k) := by
  have h1 : (8 - k) + k = 8 := by omega
  calc d.getD i 0 / 2 ^ k = extractN d (8 * i) 8 / 2 ^ k := by rw [byte_extractN d i hb]
    _ = extractN d (8 * i) ((8 - k) + k) / 2 ^ k := by rw [h1]
    _ = extractN d (8 * i) (8 - k) := extractN_div d (8 * i) (8 - k) k

lemma byte_shiftRight (d : Bytes) (i k : Nat) (hb : d.getD i 0 < 256) (hk : k ≤ 8) :
    d.getD i 0 >>> k = extractN d (8 * i) (8 - k) := by
  rw [Nat.shiftRight_eq_div_pow]
  exact byte_hi d i k hb hk

lemma byte_and_maskRight (d : Bytes) (i o : Nat) (hb : d.getD i 0 < 256) (ho : o ≤ 8) :
    d.getD i 0 &&& (255 >>> o) = extractN d (8 * i + o) (8 - o) := by
  rw [mask_shiftRight o ho, and_two_pow_sub_one]
  exact byte_lo d i o hb ho

/-- `(b << L) & 0xff`: the low `8 - L` bits of byte `i`, shifted up by `L`. -/
lemma byte_shl_mask (d : Bytes) (i L : Nat) (hb : d.getD i 0 < 256) (hL : L ≤ 8) :
    (d.getD i 0 <<< L) &&& 255 = extractN d (8 * i + L) (8 - L) * 2 ^ L := by
  rw [Nat.shiftLeft_eq, and_255]
  have h1 : (256 : Nat) = 2 ^ (8 - L) * 2 ^ L := by
    rw [← pow_add, show 8 - L + L = 8 from by omega]
    norm_num
  rw [h1, Nat.mul_mod_mul_right, byte_lo d i L hb hL]

/-- `(b[i] << 8) + b[i+1]` is the 16-bit window starting at byte `i`. -/
lemma two_byte_extractN (d : Bytes) (i : Nat) (hb1 : d.getD i 0 < 256)
    (hb2 : d.getD (i + 1) 0 < 256) :
    (d.getD i 0 <<< 8) + d.getD (i + 1) 0 = extractN d (8 * i) 16 := by
  have h16 : (16 : Nat) = 8 + 8 := by norm_num
  rw [h16, extractN_split]
  have h1 : 8 * i + 8 = 8 * (i + 1) := by ring
  rw [h1, byte_extractN d i hb1, byte_extractN d (i + 1) hb2, Nat.shiftLeft_eq]

/-! ### Reading a `getD` stream through list constructions -/

lemma getD_map_range' (f : Nat → Nat) (a n i : Nat) (hi : i < n) :
    ((List.range' a n).map f).getD i 0 = f (a + i) := by
  rw [List.getD_eq_getElem?_getD, List.getElem?_map, List.getElem?_range' a 1 hi]
  simp

lemma getD_append_lt (l l2 : Bytes) (i : Nat) (hi : i < l.length) :
    (l ++ l2).getD i 0 = l.getD i 0 :=
  List.getD_append l l2 0 i hi

lemma getD_append_ge (l l2 : Bytes) (i : Nat) (hi : l.length ≤ i) :
    (l ++ l2).getD i 0 = l2.getD (i - l.length) 0 :=
  List.getD_append_right l l2 0 i hi

lemma getD_take_lt (l : Bytes) (n i : Nat) (hi : i < n) :
    (l.take n).getD i 0 = l.getD i 0 := by
  rw [List.getD_eq_getElem?_getD, List.getElem?_take, if_pos hi, List.getD_eq_getElem?_getD]

lemma getD_drop (l : Bytes) (k i : Nat) :
    (l.drop k).getD i 0 = l.getD (k + i) 0 := by
  rw [List.getD_eq_getElem?_getD, List.getElem?_drop, List.getD_eq_getElem?_getD]

/-! ### Small helpers about the operations -/

instance {ε α : Type} [DecidableEq ε] [DecidableEq α] : DecidableEq (Except ε α) := fun x y =>
  match x, y with
  | .error a, .error b =>
      if h : a = b then .isTrue (by rw [h]) else .isFalse (by simp [h])
  | .ok a, .ok b =>
      if h : a = b then .isTrue (by rw [h]) else .isFalse (by simp [h])
  | .error _, .ok _ => .isFalse (by simp)
  | .ok _, .error _ => .isFalse (by simp)

lemma and_two_pow_bne (b m : Nat) : ((b &&& 2 ^ m) != 0) = b.testBit m := by
  rw [Nat.and_two_pow]
  have h2 : 0 < (2 : Nat) ^ m := Nat.two_pow_pos m
  cases hb : b.testBit m
  · simp
  · simp only [Bool.toNat_true, Nat.one_mul, bne_iff_ne, ne_eq]
    omega

lemma shift128 (k : Nat) (hk : k < 8) : (128 : Nat) >>> k = 2 ^ (7 - k) := by
  interval_cases k <;> rfl

lemma pymod8_lt (x : Int) : pymod8 x < 8 := by
  unfold pymod8
  omega

lemma offsetcopy_bitlength (s : ByteArray) (n : Nat) :
    (offsetcopy s n).bitlength = s.bitlength := by
  unfold offsetcopy
  split
  · rfl
  · split
    · rfl
    · split <;> rfl

lemma offsetcopy_offset (s : ByteArray) (n : Nat) :
    (offsetcopy s n).offset = if s.bitlength = 0 then s.offset else n := by
  by_cases h0 : s.bitlength = 0
  · simp [offsetcopy, h0, ByteArray.copy]
  · by_cases h1 : n = s.offset % 8
    · simp [offsetcopy, h0, h1]
    · by_cases h2 : n < s.offset % 8
      · simp [offsetcopy, h0, h1, h2]
      · simp [offsetcopy, h0, h1, h2]

lemma appendarray_offset {self arr c : ByteArray} (h : appendarray self arr = some c) :
    c.offset = self.offset := by
  simp only [appendarray] at h
  split at h
  · cases h; rfl
  · split at h
    · split at h
      · exact Option.noConfusion h
      · cases h; rfl
    · cases h; rfl

lemma prependarray_offset {self arr c : ByteArray} (hc : prependarray self arr = some c) :
    c.offset = self.offset ∨
      (arr.bitlength ≠ 0 ∧ c.offset = pymod8 ((self.offset : Int) - arr.bitlength)) := by
  simp only [prependarray] at hc
  split at hc
  case isTrue h0 => cases hc; left; rfl
  case isFalse h0 =>
    right
    refine ⟨h0, ?_⟩
    split at hc
    · split at hc
      · exact Option.noConfusion hc
      · cases hc
        dsimp only
        rw [offsetcopy_offset, if_neg h0]
    · cases hc
      dsimp only
      rw [offsetcopy_offset, if_neg h0]

lemma okBytes_of_getD {l : Bytes} (h : ∀ i, i < l.length → l.getD i 0 < 256) :
    okBytes l := by
  intro b hb
  obtain ⟨i, hi, hbi⟩ := List.getElem_of_mem hb
  have h2 := h i hi
  rw [List.getD_eq_getElem?_getD, List.getElem?_eq_getElem hi] at h2
  simpa [hbi] using h2

lemma byteoffset_eq_zero {s : ByteArray} (hoff : s.offset < 8) : s.byteoffset = 0 :=
  Nat.div_eq_of_lt hoff

lemma bytelength_eq {s : ByteArray} (hoff : s.offset < 8) (hbl : s.bitlength ≠ 0) :
    s.bytelength = (s.offset + s.bitlength - 1) / 8 + 1 := by
  unfold ByteArray.bytelength
  rw [if_neg hbl, Nat.div_eq_of_lt hoff, Nat.sub_zero]

/-- A byte made of a `w`-bit extracted field shifted up by `z` (with `w + z
≤ 8`) stays below 256. -/
lemma field_lt {d : Bytes} {t w z : Nat} (hwz : w + z ≤ 8) {r : Nat} (hr : r < 2 ^ z) :
    extractN d t w * 2 ^ z + r < 256 := by
  have h1 : extractN d t w * 2 ^ z + r < (extractN d t w + 1) * 2 ^ z := by
    rw [add_mul, one_mul]
    omega
  have h2 : (extractN d t w + 1) * 2 ^ z ≤ 2 ^ w * 2 ^ z :=
    Nat.mul_le_mul_right _ (extractN_lt d t w)
  have h3 : (2 : Nat) ^ w * 2 ^ z = 2 ^ (w + z) := (pow_add 2 w z).symm
  have h4 : (2 : Nat) ^ (w + z) ≤ 2 ^ 8 := Nat.pow_le_pow_right (by norm_num) hwz
  norm_num at h4
  omega

/-- The fast path of `offsetcopy` (`newoffset = offset % 8`) copies the
addressed bytes verbatim and preserves every logical bit. -/
lemma offsetcopy_correct_fast (s : ByteArray) (n : Nat) (hok : okBytes s.rawarray)
    (hoff : s.offset < 8) (hcov : s.bytelength ≤ s.rawarray.length)
    (hbl : s.bitlength ≠ 0) (hn : n = s.offset % 8) :
    (offsetcopy s n).rawarray.length = (n + s.bitlength + 7) / 8 ∧
    okBytes (offsetcopy s n).rawarray ∧
    ∀ p, p < s.bitlength →
      bitval (offsetcopy s n).rawarray (n + p) = bitval s.rawarray (s.offset + p) := by
  have ho8 : s.offset % 8 = s.offset := Nat.mod_eq_of_lt hoff
  have hno : n = s.offset := by omega
  have hblen := bytelength_eq hoff hbl
  have hraw : (offsetcopy s n).rawarray = s.rawarray.take s.bytelength := by
    simp [offsetcopy, hbl, hn, ByteArray.getbyteslice, byteoffset_eq_zero hoff]
  have hlen : (offsetcopy s n).rawarray.length = s.bytelength := by
    rw [hraw, List.length_take]
    exact Nat.min_eq_left hcov
  refine ⟨?_, ?_, ?_⟩
  · rw [hlen]
    omega
  · apply okBytes_of_getD
    intro i hi
    rw [hlen] at hi
    rw [hraw, getD_take_lt _ _ _ hi]
    exact okBytes_getD hok i
  · intro p hp
    have hIdx : (n + p) / 8 < s.bytelength := by omega
    unfold bitval
    rw [hraw, getD_take_lt _ _ _ hIdx, hno]

/-- The bits-in-last-byte count `B` of a nonempty region starting at
`offset < 8`: `offset + bitlength = 8 * (bytelength - 1) + B` with
`1 ≤ B ≤ 8`. -/
lemma bits_in_last_byte_eq {s : ByteArray} (hoff : s.offset < 8) (hbl : s.bitlength ≠ 0) :
    s.offset + s.bitlength =
      8 * (s.bytelength - 1) +
        (if (s.offset + s.bitlength) % 8 = 0 then 8 else (s.offset + s.bitlength) % 8) ∧
      1 ≤ (if (s.offset + s.bitlength) % 8 = 0 then 8 else (s.offset + s.bitlength) % 8) ∧
      (if (s.offset + s.bitlength) % 8 = 0 then 8 else (s.offset + s.bitlength) % 8) ≤ 8 := by
  rw [bytelength_eq hoff hbl]
  split <;> omega

/-- The left-shift path of `offsetcopy` (`newoffset < offset % 8`): the
result has the exact byte length for the new offset, bytes below 256, and
the same logical bits. -/
lemma offsetcopy_correct_left (s : ByteArray) (n : Nat) (hok : okBytes s.rawarray)
    (hoff : s.offset < 8) (hcov : s.bytelength ≤ s.rawarray.length)
    (hbl : s.bitlength ≠ 0) (hlt : n < s.offset % 8) :
    (offsetcopy s n).rawarray.length = (n + s.bitlength + 7) / 8 ∧
    okBytes (offsetcopy s n).rawarray ∧
    ∀ p, p < s.bitlength →
      bitval (offsetcopy s n).rawarray (n + p) = bitval s.rawarray (s.offset + p) := by
  have ho8 : s.offset % 8 = s.offset := Nat.mod_eq_of_lt hoff
  have hblen := bytelength_eq hoff hbl
  have hbo := byteoffset_eq_zero hoff
  obtain ⟨hB, hB1, hB8⟩ := bits_in_last_byte_eq hoff hbl
  have hraw : (offsetcopy s n).rawarray =
      (List.range' 0 (s.bytelength - 1)).map (fun x =>
        ((s.rawarray.getD x 0 <<< (s.offset % 8 - n)) &&& 255) +
        (s.rawarray.getD (x + 1) 0 >>> (8 - (s.offset % 8 - n)))) ++
      (if (if (s.offset + s.bitlength) % 8 = 0 then 8 else (s.offset + s.bitlength) % 8) >
          s.offset % 8 - n
       then [(s.rawarray.getD (s.bytelength - 1) 0 <<< (s.offset % 8 - n)) &&& 255]
       else []) := by
    simp only [offsetcopy]
    rw [if_neg hbl, if_neg (by omega : ¬ n = s.offset % 8), if_pos hlt, hbo, Nat.zero_add]
    split
    case isTrue h =>
      split
      case isTrue h2 => rfl
      case isFalse h2 => rw [List.append_nil]
    case isFalse h =>
      split
      case isTrue h2 => rfl
      case isFalse h2 => rw [List.append_nil]
  set B := if (s.offset + s.bitlength) % 8 = 0 then 8 else (s.offset + s.bitlength) % 8 with hBdef
  set L := s.offset % 8 - n with hLdef
  set d := s.rawarray with hddef
  have hmainlen : ∀ g : Nat → Nat, ((List.range' 0 (s.bytelength - 1)).map g).length =
      s.bytelength - 1 := by
    intro g
    rw [List.length_map, List.length_range']
  have hmain : ∀ j, j < s.bytelength - 1 →
      (offsetcopy s n).rawarray.getD j 0 = extractN d (8 * j + L) 8 := by
    intro j hj
    rw [hraw, getD_append_lt _ _ _ (by rw [hmainlen]; omega), getD_map_range' _ 0 _ j hj,
      Nat.zero_add]
    have h1 : (d.getD j 0 <<< L) &&& 255 = extractN d (8 * j + L) (8 - L) * 2 ^ L :=
      byte_shl_mask d j L (okBytes_getD hok j) (by omega)
    have h2 : d.getD (j + 1) 0 >>> (8 - L) = extractN d (8 * (j + 1)) L := by
      rw [byte_shiftRight d (j + 1) (8 - L) (okBytes_getD hok (j + 1)) (by omega),
        show 8 - (8 - L) = L from by omega]
    rw [h1, h2]
    have h3 : extractN d (8 * j + L) 8 =
        extractN d (8 * j + L) (8 - L) * 2 ^ L + extractN d (8 * j + L + (8 - L)) L := by
      rw [← extractN_split d (8 * j + L) (8 - L) L, show (8 - L) + L = 8 from by omega]
    rw [h3, show 8 * j + L + (8 - L) = 8 * (j + 1) from by omega]
  have hlast : B > L →
      (offsetcopy s n).rawarray.getD (s.bytelength - 1) 0 =
        extractN d (8 * (s.bytelength - 1) + L) (8 - L) * 2 ^ L := by
    intro hBL
    rw [hraw, getD_append_ge _ _ _ (by rw [hmainlen]), if_pos hBL, hmainlen, Nat.sub_self]
    show (d.getD (s.bytelength - 1) 0 <<< L) &&& 255 = _
    exact byte_shl_mask d (s.bytelength - 1) L (okBytes_getD hok _) (by omega)
  have hlen : (offsetcopy s n).rawarray.length = (n + s.bitlength + 7) / 8 := by
    rw [hraw, List.length_append, hmainlen]
    split
    case isTrue h =>
      simp only [List.length_cons, List.length_nil]
      omega
    case isFalse h =>
      simp only [List.length_nil]
      omega
  refine ⟨hlen, ?_, ?_⟩
  · apply okBytes_of_getD
    intro i hi
    rw [hlen] at hi
    rcases Nat.lt_or_ge i (s.bytelength - 1) with hilt | hige
    · rw [hmain i hilt]
      have := extractN_lt d (8 * i + L) 8
      norm_num at this
      omega
    · have hieq : i = s.bytelength - 1 ∧ B > L := by omega
      rw [hieq.1, hlast hieq.2]
      have := field_lt (d := d) (t := 8 * (s.bytelength - 1) + L) (w := 8 - L) (z := L)
        (by omega) (r := 0) (Nat.two_pow_pos L)
      omega
  · intro p hp
    have hPub : n + p ≤ 8 * (s.bytelength - 1) + B - L - 1 := by omega
    rcases Nat.lt_or_ge ((n + p) / 8) (s.bytelength - 1) with hI | hI
    · have hv : (offsetcopy s n).rawarray.getD ((n + p) / 8) 0 =
          0 * 2 ^ (8 + 0) + extractN d (8 * ((n + p) / 8) + L) 8 * 2 ^ 0 + 0 := by
        rw [hmain _ hI]
        ring
      have hfb := field_bit (by norm_num : 8 + 0 ≤ 8) (by norm_num : (0 : Nat) < 2 ^ 0) hv
        (j := (n + p) % 8) (by omega) (by omega)
      calc bitval (offsetcopy s n).rawarray (n + p)
          = ((offsetcopy s n).rawarray.getD ((n + p) / 8) 0 >>> (7 - (n + p) % 8)) &&& 1 := rfl
        _ = bitval d (8 * ((n + p) / 8) + L + ((n + p) % 8 - (8 - 8 - 0))) := hfb
        _ = bitval d (s.offset + p) := by congr 1; omega
    · have hIeq : (n + p) / 8 = s.bytelength - 1 ∧ B > L := by omega
      have hv : (offsetcopy s n).rawarray.getD ((n + p) / 8) 0 =
          0 * 2 ^ ((8 - L) + L) + extractN d (8 * (s.bytelength - 1) + L) (8 - L) * 2 ^ L + 0 := by
        rw [hIeq.1, hlast hIeq.2]
        ring
      have hfb := field_bit (by omega : (8 - L) + L ≤ 8) (Nat.two_pow_pos L) hv
        (j := (n + p) % 8) (by omega) (by omega)
      calc bitval (offsetcopy s n).rawarray (n + p)
          = ((offsetcopy s n).rawarray.getD ((n + p) / 8) 0 >>> (7 - (n + p) % 8)) &&& 1 := rfl
        _ = bitval d (8 * (s.bytelength - 1) + L + ((n + p) % 8 - (8 - (8 - L) - L))) := hfb
        _ = bitval d (s.offset + p) := by congr 1; omega

/-- The right-shift path of `offsetcopy` (`newoffset > offset % 8`), for a
source with `offset < 8` (`byteoffset = 0`, which every caller in the claims
satisfies; for larger byte offsets this path reads the wrong bytes). -/
lemma offsetcopy_correct_right (s : ByteArray) (n : Nat) (hok : okBytes s.rawarray)
    (hoff : s.offset < 8) (hn : n < 8) (hbl : s.bitlength ≠ 0)
    (hgt : n > s.offset % 8) :
    (offsetcopy s n).rawarray.length = (n + s.bitlength + 7) / 8 ∧
    okBytes (offsetcopy s n).rawarray ∧
    ∀ p, p < s.bitlength →
      bitval (offsetcopy s n).rawarray (n + p) = bitval s.rawarray (s.offset + p) := by
  have ho8 : s.offset % 8 = s.offset := Nat.mod_eq_of_lt hoff
  have hblen := bytelength_eq hoff hbl
  have hbo := byteoffset_eq_zero hoff
  obtain ⟨hB, hB1, hB8⟩ := bits_in_last_byte_eq hoff hbl
  have hfirst : s.getbyte 0 = s.rawarray.getD 0 0 := by
    simp [ByteArray.getbyte, hbo, pyGet]
  have hraw : (offsetcopy s n).rawarray =
      (s.rawarray.getD 0 0 >>> (n - s.offset % 8)) ::
      ((List.range' 1 (s.bytelength - 1)).map (fun x =>
        ((s.rawarray.getD (x - 1) 0 <<< (8 - (n - s.offset % 8))) &&& 255) +
        (s.rawarray.getD x 0 >>> (n - s.offset % 8))) ++
      (if (if (s.offset + s.bitlength) % 8 = 0 then 8 else (s.offset + s.bitlength) % 8) +
          (n - s.offset % 8) > 8
       then [(s.rawarray.getD (s.bytelength - 1) 0 <<< (8 - (n - s.offset % 8))) &&& 255]
       else [])) := by
    simp only [offsetcopy]
    rw [if_neg hbl, if_neg (by omega : ¬ n = s.offset % 8), if_neg (by omega), hbo,
      Nat.zero_add, hfirst]
    split
    case isTrue h =>
      split
      case isTrue h2 => rw [List.cons_append]
      case isFalse h2 => rw [List.append_nil]
    case isFalse h =>
      split
      case isTrue h2 => rw [List.cons_append]
      case isFalse h2 => rw [List.append_nil]
  set B := if (s.offset + s.bitlength) % 8 = 0 then 8 else (s.offset + s.bitlength) % 8 with hBdef
  set R := n - s.offset % 8 with hRdef
  set d := s.rawarray with hddef
  have hR1 : 1 ≤ R := by omega
  have hR8 : R < 8 := by omega
  have hmainlen : ∀ g : Nat → Nat, ((List.range' 1 (s.bytelength - 1)).map g).length =
      s.bytelength - 1 := by
    intro g
    rw [List.length_map, List.length_range']
  have hfirstv : (offsetcopy s n).rawarray.getD 0 0 = extractN d 0 (8 - R) := by
    rw [hraw, List.getD_cons_zero, byte_shiftRight d 0 R (okBytes_getD hok 0) (by omega)]
  have hmid : ∀ j, 1 ≤ j → j ≤ s.bytelength - 1 →
      (offsetcopy s n).rawarray.getD j 0 =
        extractN d (8 * j - R) R * 2 ^ (8 - R) + extractN d (8 * j) (8 - R) := by
    intro j hj1 hj2
    obtain ⟨j0, rfl⟩ : ∃ j0, j = j0 + 1 := ⟨j - 1, by omega⟩
    rw [hraw, List.getD_cons_succ, getD_append_lt _ _ _ (by rw [hmainlen]; omega),
      getD_map_range' _ 1 _ j0 (by omega)]
    have hx : 1 + j0 - 1 = j0 := by omega
    rw [hx]
    have h1 : (d.getD j0 0 <<< (8 - R)) &&& 255 =
        extractN d (8 * j0 + (8 - R)) (8 - (8 - R)) * 2 ^ (8 - R) :=
      byte_shl_mask d j0 (8 - R) (okBytes_getD hok j0) (by omega)
    have h2 : d.getD (1 + j0) 0 >>> R = extractN d (8 * (1 + j0)) (8 - R) :=
      byte_shiftRight d (1 + j0) R (okBytes_getD hok (1 + j0)) (by omega)
    rw [h1, h2, show 8 * j0 + (8 - R) = 8 * (j0 + 1) - R from by omega,
      show 8 - (8 - R) = R from by omega, show 1 + j0 = j0 + 1 from by omega]
  have hlastv : B + R > 8 →
      (offsetcopy s n).rawarray.getD s.bytelength 0 =
        extractN d (8 * s.bytelength - R) R * 2 ^ (8 - R) := by
    intro hBR
    obtain ⟨m, hm⟩ : ∃ m, s.bytelength = m + 1 := ⟨s.bytelength - 1, by omega⟩
    rw [hm, hraw, List.getD_cons_succ, getD_append_ge _ _ _ (by rw [hmainlen, hm]; omega)]
    rw [hmainlen, hm, Nat.add_sub_cancel, Nat.sub_self, if_pos hBR]
    show (d.getD (m + 1 - 1) 0 <<< (8 - R)) &&& 255 = _
    rw [Nat.add_sub_cancel]
    rw [byte_shl_mask d m (8 - R) (okBytes_getD hok m) (by omega),
      show 8 - (8 - R) = R from by omega, show 8 * m + (8 - R) = 8 * (m + 1) - R from by omega]
  have hlen : (offsetcopy s n).rawarray.length = (n + s.bitlength + 7) / 8 := by
    rw [hraw, List.length_cons, List.length_append, hmainlen]
    split
    case isTrue h =>
      simp only [List.length_cons, List.length_nil]
      omega
    case isFalse h =>
      simp only [List.length_nil]
      omega
  refine ⟨hlen, ?_, ?_⟩
  · apply okBytes_of_getD
    intro i hi
    rw [hlen] at hi
    rcases Nat.lt_or_ge i 1 with hi0 | hi1
    · have : i = 0 := by omega
      rw [this, hfirstv]
      have := extractN_lt d 0 (8 - R)
      have h2 : (2 : Nat) ^ (8 - R) ≤ 2 ^ 8 := Nat.pow_le_pow_right (by norm_num) (by omega)
      norm_num at h2
      omega
    · rcases Nat.lt_or_ge i s.bytelength with himid | hilast
      · rw [hmid i hi1 (by omega)]
        have := field_lt (d := d) (t := 8 * i - R) (w := R) (z := 8 - R) (by omega)
          (extractN_lt d (8 * i) (8 - R))
        omega
      · have : i = s.bytelength ∧ B + R > 8 := by omega
        rw [this.1, hlastv this.2]
        have := field_lt (d := d) (t := 8 * s.bytelength - R) (w := R) (z := 8 - R) (by omega)
          (r := 0) (Nat.two_pow_pos (8 - R))
        omega
  · intro p hp
    have hPub : n + p ≤ 8 * (s.bytelength - 1) + B + R - 1 := by omega
    rcases Nat.lt_or_ge ((n + p) / 8) 1 with hI0 | hI1
    · have hIz : (n + p) / 8 = 0 := by omega
      have hv : (offsetcopy s n).rawarray.getD ((n + p) / 8) 0 =
          0 * 2 ^ ((8 - R) + 0) + extractN d 0 (8 - R) * 2 ^ 0 + 0 := by
        rw [hIz, hfirstv]
        ring
      have hfb := field_bit (by omega : (8 - R) + 0 ≤ 8) (by norm_num : (0 : Nat) < 2 ^ 0) hv
        (j := (n + p) % 8) (by omega) (by omega)
      calc bitval (offsetcopy s n).rawarray (n + p)
          = ((offsetcopy s n).rawarray.getD ((n + p) / 8) 0 >>> (7 - (n + p) % 8)) &&& 1 := rfl
        _ = bitval d (0 + ((n + p) % 8 - (8 - (8 - R) - 0))) := hfb
        _ = bitval d (s.offset + p) := by congr 1; omega
    · rcases Nat.lt_or_ge ((n + p) / 8) s.bytelength with hImid | hIlast
      · rcases Nat.lt_or_ge ((n + p) % 8) R with hjlt | hjge
        · have hv : (offsetcopy s n).rawarray.getD ((n + p) / 8) 0 =
              0 * 2 ^ (R + (8 - R)) + extractN d (8 * ((n + p) / 8) - R) R * 2 ^ (8 - R) +
                extractN d (8 * ((n + p) / 8)) (8 - R) := by
            rw [hmid _ hI1 (by omega)]
            ring
          have hfb := field_bit (by omega : R + (8 - R) ≤ 8)
            (extractN_lt d (8 * ((n + p) / 8)) (8 - R)) hv
            (j := (n + p) % 8) (by omega) (by omega)
          calc bitval (offsetcopy s n).rawarray (n + p)
              = ((offsetcopy s n).rawarray.getD ((n + p) / 8) 0 >>> (7 - (n + p) % 8)) &&& 1 :=
                rfl
            _ = bitval d (8 * ((n + p) / 8) - R + ((n + p) % 8 - (8 - R - (8 - R)))) := hfb
            _ = bitval d (s.offset + p) := by congr 1; omega
        · have hv : (offsetcopy s n).rawarray.getD ((n + p) / 8) 0 =
              extractN d (8 * ((n + p) / 8) - R) R * 2 ^ ((8 - R) + 0) +
                extractN d (8 * ((n + p) / 8)) (8 - R) * 2 ^ 0 + 0 := by
            rw [hmid _ hI1 (by omega)]
            ring
          have hfb := field_bit (by omega : (8 - R) + 0 ≤ 8) (by norm_num : (0 : Nat) < 2 ^ 0) hv
            (j := (n + p) % 8) (by omega) (by omega)
          calc bitval (offsetcopy s n).rawarray (n + p)
              = ((offsetcopy s n).rawarray.getD ((n + p) / 8) 0 >>> (7 - (n + p) % 8)) &&& 1 :=
                rfl
            _ = bitval d (8 * ((n + p) / 8) + ((n + p) % 8 - (8 - (8 - R) - 0))) := hfb
            _ = bitval d (s.offset + p) := by congr 1; omega
      · have hIeq : (n + p) / 8 = s.bytelength ∧ B + R > 8 := by omega
        have hv : (offsetcopy s n).rawarray.getD ((n + p) / 8) 0 =
            0 * 2 ^ (R + (8 - R)) + extractN d (8 * s.bytelength - R) R * 2 ^ (8 - R) + 0 := by
          rw [hIeq.1, hlastv hIeq.2]
          ring
        have hfb := field_bit (by omega : R + (8 - R) ≤ 8) (Nat.two_pow_pos (8 - R)) hv
          (j := (n + p) % 8) (by omega) (by omega)
        calc bitval (offsetcopy s n).rawarray (n + p)
            = ((offsetcopy s n).rawarray.getD ((n + p) / 8) 0 >>> (7 - (n + p) % 8)) &&& 1 := rfl
          _ = bitval d (8 * s.bytelength - R + ((n + p) % 8 - (8 - R - (8 - R)))) := hfb
          _ = bitval d (s.offset + p) := by congr 1; omega

/-- Summary correctness of `offsetcopy` on a nonempty in-memory source with
`offset < 8`: the copy addresses the same bit sequence at the new offset,
in a raw array of exactly the needed length. -/
lemma offsetcopy_correct (s : ByteArray) (n : Nat) (hok : okBytes s.rawarray)
    (hoff : s.offset < 8) (hn : n < 8) (hcov : s.bytelength ≤ s.rawarray.length)
    (hbl : s.bitlength ≠ 0) :
    (offsetcopy s n).offset = n ∧
    (offsetcopy s n).bitlength = s.bitlength ∧
    (offsetcopy s n).rawarray.length = (n + s.bitlength + 7) / 8 ∧
    okBytes (offsetcopy s n).rawarray ∧
    ∀ p, p < s.bitlength →
      bitval (offsetcopy s n).rawarray (n + p) = bitval s.rawarray (s.offset + p) := by
  have hrest : (offsetcopy s n).rawarray.length = (n + s.bitlength + 7) / 8 ∧
      okBytes (offsetcopy s n).rawarray ∧
      ∀ p, p < s.bitlength →
        bitval (offsetcopy s n).rawarray (n + p) = bitval s.rawarray (s.offset + p) := by
    rcases Nat.lt_trichotomy n (s.offset % 8) with h | h | h
    · exact offsetcopy_correct_left s n hok hoff hcov hbl h
    · exact offsetcopy_correct_fast s n hok hoff hcov hbl h
    · exact offsetcopy_correct_right s n hok hoff hn hbl h
  exact ⟨by rw [offsetcopy_offset, if_neg hbl], offsetcopy_bitlength s n,
    hrest.1, hrest.2.1, hrest.2.2⟩

lemma bitval_append_lt (l1 l2 : Bytes) (i : Nat) (h : i / 8 < l1.length) :
    bitval (l1 ++ l2) i = bitval l1 i := by
  unfold bitval
  rw [getD_append_lt _ _ _ h]

lemma bitval_append_ge (l1 l2 : Bytes) (i : Nat) (h : l1.length ≤ i / 8) :
    bitval (l1 ++ l2) i = bitval l2 (i - 8 * l1.length) := by
  unfold bitval
  rw [getD_append_ge _ _ _ h]
  have h1 : i / 8 - l1.length = (i - 8 * l1.length) / 8 := by omega
  have h2 : i % 8 = (i - 8 * l1.length) % 8 := by omega
  rw [h1, h2]

lemma okBytes_append {l1 l2 : Bytes} (h1 : okBytes l1) (h2 : okBytes l2) :
    okBytes (l1 ++ l2) := by
  intro b hb
  rcases List.mem_append.mp hb with h | h
  · exact h1 b h
  · exact h2 b h

lemma okBytes_sublist {l1 l2 : Bytes} (hs : l1.Sublist l2) (h : okBytes l2) : okBytes l1 :=
  fun b hb => h b (List.Sublist.mem hb hs)

lemma lor_lt_256 {x y : Nat} (hx : x < 256) (hy : y < 256) : x ||| y < 256 := by
  have e : (2 : Nat) ^ 8 = 256 := by norm_num
  have h := Nat.bitwise_lt (f := or) (x := x) (y := y) (n := 8) (by omega) (by omega)
  have e2 : x ||| y = Nat.bitwise or x y := rfl
  omega

lemma shiftRight_and_one_eq_testBit (x k : Nat) : (x >>> k) &&& 1 = (x.testBit k).toNat := by
  rw [Nat.testBit_to_div_mod, Nat.shiftRight_eq_div_pow, Nat.and_one_is_mod]
  rcases Nat.mod_two_eq_zero_or_one (x / 2 ^ k) with h | h <;> simp [h]

/-- The straddling-byte merge of append/prepend: bit `j` of
`(last & (0xff ^ (0xff >> o))) | (a0 & (0xff >> o))` comes from `last` for
`j < o` and from `a0` for `j ≥ o`. -/
lemma join_bit (last a0 o j : Nat) (ho : o < 8) (hj : j < 8) :
    (((last &&& (255 ^^^ (255 >>> o))) ||| (a0 &&& (255 >>> o))) >>> (7 - j)) &&& 1 =
      if j < o then (last >>> (7 - j)) &&& 1 else (a0 >>> (7 - j)) &&& 1 := by
  have h255 : (255 : Nat) = 2 ^ 8 - 1 := by norm_num
  have hm2 : Nat.testBit (255 >>> o) (7 - j) = decide (o ≤ j) := by
    rw [Nat.testBit_shiftRight, h255, Nat.testBit_two_pow_sub_one, decide_eq_decide]
    omega
  have hm1 : Nat.testBit (255 ^^^ (255 >>> o)) (7 - j) = decide (j < o) := by
    rw [Nat.testBit_xor, hm2, h255, Nat.testBit_two_pow_sub_one]
    have h78 : 7 - j < 8 := by omega
    by_cases hoj : o ≤ j
    · simp [h78, hoj, show ¬ j < o from by omega]
    · simp [h78, hoj, show j < o from by omega]
  rw [shiftRight_and_one_eq_testBit, Nat.testBit_lor, Nat.testBit_land, Nat.testBit_land,
    hm1, hm2]
  by_cases hjo : j < o
  · rw [if_pos hjo, shiftRight_and_one_eq_testBit]
    simp [hjo, show ¬ o ≤ j from by omega]
  · rw [if_neg hjo, shiftRight_and_one_eq_testBit]
    simp [hjo, show o ≤ j from by omega]

lemma getD_dropLast_lt (l : Bytes) (i : Nat) (hi : i < l.length - 1) :
    l.dropLast.getD i 0 = l.getD i 0 := by
  rw [List.getD_eq_getElem?_getD, List.getElem?_dropLast, if_pos hi,
    ← List.getD_eq_getElem?_getD]

lemma getbyte_zero (s : ByteArray) (h : s.offset < 8) : s.getbyte 0 = s.rawarray.getD 0 0 := by
  simp [ByteArray.getbyte, byteoffset_eq_zero h, pyGet]

lemma getLast?_eq_getD {l : Bytes} (hne : l ≠ []) :
    l.getLast? = some (l.getD (l.length - 1) 0) := by
  have hlen1 : l.length - 1 < l.length := Nat.sub_lt (List.length_pos.mpr hne) Nat.one_pos
  rw [List.getLast?_eq_getElem?, List.getElem?_eq_getElem hlen1, List.getD_eq_getElem?_getD,
    List.getElem?_eq_getElem hlen1]
  rfl

/-- Shape of `appendarray` when the realigned tail lands at a nonzero
offset: pop the last byte, merge it, extend with the rest. -/
lemma appendarray_eq_join (a b : ByteArray) (hb0 : b.bitlength ≠ 0)
    (hmz : (offsetcopy b ((a.offset + a.bitlength) % 8)).offset ≠ 0)
    (hne : a.rawarray ≠ []) :
    appendarray a b = some ⟨(a.rawarray.dropLast ++
        [(a.rawarray.getD (a.rawarray.length - 1) 0 &&&
            (255 ^^^ (255 >>> (offsetcopy b ((a.offset + a.bitlength) % 8)).offset))) |||
          ((offsetcopy b ((a.offset + a.bitlength) % 8)).getbyte 0 &&&
            (255 >>> (offsetcopy b ((a.offset + a.bitlength) % 8)).offset))]) ++
      (offsetcopy b ((a.offset + a.bitlength) % 8)).rawarray.drop 1,
      a.bitlength + (offsetcopy b ((a.offset + a.bitlength) % 8)).bitlength, a.offset⟩ := by
  simp only [appendarray]
  rw [if_neg hb0, if_pos hmz, getLast?_eq_getD hne]

/-- Shape of `appendarray` when the realigned tail lands at offset 0: the
bytes are appended verbatim. -/
lemma appendarray_eq_aligned (a b : ByteArray) (hb0 : b.bitlength ≠ 0)
    (hmz : (offsetcopy b ((a.offset + a.bitlength) % 8)).offset = 0) :
    appendarray a b =
      some ⟨a.rawarray ++ (offsetcopy b ((a.offset + a.bitlength) % 8)).rawarray,
        a.bitlength + (offsetcopy b ((a.offset + a.bitlength) % 8)).bitlength, a.offset⟩ := by
  simp only [appendarray]
  rw [if_neg hb0, if_neg (fun h => h hmz)]

/-- Correctness of `appendarray` for in-memory buffers with offsets below 8,
provided `a`'s raw storage ends exactly where its addressed region ends: the
result holds `a`'s bits followed by `b`'s bits, at offset `a.offset`. -/
lemma appendarray_correct (a b : ByteArray)
    (hoka : okBytes a.rawarray) (hokb : okBytes b.rawarray)
    (hoffa : a.offset < 8) (hoffb : b.offset < 8)
    (hcovb : b.bytelength ≤ b.rawarray.length)
    (hexact : a.rawarray.length = (a.offset + a.bitlength + 7) / 8) :
    ∃ c, appendarray a b = some c ∧
      okBytes c.rawarray ∧
      c.offset = a.offset ∧
      c.bitlength = a.bitlength + b.bitlength ∧
      c.rawarray.length = (a.offset + (a.bitlength + b.bitlength) + 7) / 8 ∧
      (∀ p, p < a.bitlength →
        bitval c.rawarray (a.offset + p) = bitval a.rawarray (a.offset + p)) ∧
      (∀ p, p < b.bitlength →
        bitval c.rawarray (a.offset + a.bitlength + p) = bitval b.rawarray (b.offset + p)) := by
  by_cases hb0 : b.bitlength = 0
  · refine ⟨a, ?_, hoka, rfl, by omega, by omega, fun p hp => rfl,
      fun p hp => absurd hp (by omega)⟩
    simp only [appendarray]
    rw [if_pos hb0]
  · have hm8 : (a.offset + a.bitlength) % 8 < 8 := Nat.mod_lt _ (by norm_num)
    obtain ⟨hao, habl, halen, haok, habits⟩ :=
      offsetcopy_correct b ((a.offset + a.bitlength) % 8) hokb hoffb hm8 hcovb hb0
    by_cases hmz : (a.offset + a.bitlength) % 8 = 0
    · -- aligned: a.offset + a.bitlength is a whole number of bytes
      have h8 : 8 * a.rawarray.length = a.offset + a.bitlength := by omega
      refine ⟨_, appendarray_eq_aligned a b hb0 (by rw [hao]; exact hmz), ?_, rfl, ?_, ?_, ?_, ?_⟩
      · exact okBytes_append hoka haok
      · show a.bitlength + (offsetcopy b ((a.offset + a.bitlength) % 8)).bitlength = _
        omega
      · show (a.rawarray ++ (offsetcopy b ((a.offset + a.bitlength) % 8)).rawarray).length = _
        rw [List.length_append, halen]
        omega
      · intro p hp
        show bitval (a.rawarray ++ (offsetcopy b ((a.offset + a.bitlength) % 8)).rawarray) _ = _
        rw [bitval_append_lt _ _ _ (by omega)]
      · intro p hp
        show bitval (a.rawarray ++ (offsetcopy b ((a.offset + a.bitlength) % 8)).rawarray) _ = _
        rw [bitval_append_ge _ _ _ (by omega), show a.offset + a.bitlength + p -
          8 * a.rawarray.length = (a.offset + a.bitlength) % 8 + p from by omega]
        exact habits p hp
    · -- join: merge the straddling byte
      have hbits1 : 1 ≤ a.offset + a.bitlength := by
        by_contra h
        exact hmz (by omega)
      have hLa1 : 1 ≤ a.rawarray.length := by omega
      have hne : a.rawarray ≠ [] := List.length_pos.mp (by omega)
      have h8 : a.offset + a.bitlength =
          8 * (a.rawarray.length - 1) + (a.offset + a.bitlength) % 8 := by omega
      refine ⟨_, appendarray_eq_join a b hb0 (by rw [hao]; exact hmz) hne,
        ?_, rfl, ?_, ?_, ?_, ?_⟩
      · -- bytes below 256
        apply okBytes_append
        apply okBytes_append
        · exact okBytes_sublist (List.dropLast_sublist _) hoka
        · intro v hv
          rw [List.mem_singleton] at hv
          rw [hv]
          apply lor_lt_256
          · exact Nat.lt_of_le_of_lt Nat.and_le_left (okBytes_getD hoka _)
          · refine Nat.lt_of_le_of_lt Nat.and_le_left ?_
            rw [getbyte_zero _ (by rw [hao]; exact hm8)]
            exact okBytes_getD haok 0
        · exact okBytes_sublist (List.drop_sublist _ _) haok
      · show a.bitlength + (offsetcopy b ((a.offset + a.bitlength) % 8)).bitlength = _
        omega
      · show ((a.rawarray.dropLast ++ [_]) ++
            (offsetcopy b ((a.offset + a.bitlength) % 8)).rawarray.drop 1).length = _
        rw [List.length_append, List.length_append, List.length_dropLast,
          List.length_drop, halen]
        simp only [List.length_cons, List.length_nil]
        omega
      · intro p hp
        have hfront : (a.rawarray.dropLast ++ [(a.rawarray.getD (a.rawarray.length - 1) 0 &&&
            (255 ^^^ (255 >>> (offsetcopy b ((a.offset + a.bitlength) % 8)).offset))) |||
            ((offsetcopy b ((a.offset + a.bitlength) % 8)).getbyte 0 &&&
              (255 >>> (offsetcopy b ((a.offset + a.bitlength) % 8)).offset))]).length =
            a.rawarray.length := by
          rw [List.length_append, List.length_dropLast]
          simp only [List.length_cons, List.length_nil]
          omega
        rcases Nat.lt_or_ge ((a.offset + p) / 8) (a.rawarray.length - 1) with hI | hI
        · unfold bitval
          rw [getD_append_lt _ _ _ (by rw [hfront]; omega),
            getD_append_lt _ _ _ (by rw [List.length_dropLast]; omega),
            getD_dropLast_lt _ _ hI]
        · have hIeq : (a.offset + p) / 8 = a.rawarray.length - 1 := by omega
          have hjm : (a.offset + p) % 8 < (a.offset + a.bitlength) % 8 := by omega
          unfold bitval
          rw [getD_append_lt _ _ _ (by rw [hfront]; omega), getD_append_ge _ _ _
              (by rw [List.length_dropLast]; omega),
            List.length_dropLast, hIeq, Nat.sub_self, List.getD_cons_zero, hao,
            getbyte_zero _ (by rw [hao]; exact hm8),
            join_bit _ _ _ _ hm8 (by omega), if_pos hjm]
      · intro p hp
        have hfront : ∀ v : Nat, (a.rawarray.dropLast ++ [v]).length = a.rawarray.length := by
          intro v
          rw [List.length_append, List.length_dropLast]
          simp only [List.length_cons, List.length_nil]
          omega
        rcases Nat.lt_or_ge ((a.offset + a.bitlength) % 8 + p) 8 with hsm | hsm
        · -- still inside the join byte
          have hIeq : (a.offset + a.bitlength + p) / 8 = a.rawarray.length - 1 := by omega
          have hjeq : (a.offset + a.bitlength + p) % 8 = (a.offset + a.bitlength) % 8 + p := by
            omega
          unfold bitval
          rw [getD_append_lt _ _ _ (by rw [hfront]; omega), getD_append_ge _ _ _
              (by rw [List.length_dropLast]; omega),
            List.length_dropLast, hIeq, Nat.sub_self, List.getD_cons_zero, hao,
            getbyte_zero _ (by rw [hao]; exact hm8),
            join_bit _ _ _ _ hm8 (by omega), if_neg (by omega), hjeq]
          have h2 := habits p hp
          unfold bitval at h2
          rw [show ((a.offset + a.bitlength) % 8 + p) / 8 = 0 from by omega,
            show ((a.offset + a.bitlength) % 8 + p) % 8 =
              (a.offset + a.bitlength) % 8 + p from by omega] at h2
          exact h2
        · -- past the join byte: read the copied tail
          have hIge : a.rawarray.length ≤ (a.offset + a.bitlength + p) / 8 := by omega
          unfold bitval
          rw [getD_append_ge _ _ _ (by rw [hfront]; omega), hfront, getD_drop]
          have h2 := habits p hp
          unfold bitval at h2
          rw [show 1 + ((a.offset + a.bitlength + p) / 8 - a.rawarray.length) =
              ((a.offset + a.bitlength) % 8 + p) / 8 from by omega,
            show (a.offset + a.bitlength + p) % 8 =
              ((a.offset + a.bitlength) % 8 + p) % 8 from by omega]
          exact h2

lemma getD_set_self (l : Bytes) (i v : Nat) (h : i < l.length) :
    (l.set i v).getD i 0 = v := by
  rw [List.getD_eq_getElem?_getD, List.getElem?_set_self h]
  rfl

lemma getD_set_ne (l : Bytes) {i j : Nat} (h : i ≠ j) (v : Nat) :
    (l.set i v).getD j 0 = l.getD j 0 := by
  rw [List.getD_eq_getElem?_getD, List.getElem?_set_ne h, ← List.getD_eq_getElem?_getD]

lemma setbyte_neg_one (s : ByteArray) (h : s.offset < 8) (hne : s.rawarray ≠ []) (v : Nat) :
    (s.setbyte (-1) v).rawarray = s.rawarray.set (s.rawarray.length - 1) v := by
  have hlen : 1 ≤ s.rawarray.length := List.length_pos.mpr hne
  simp only [ByteArray.setbyte, pySet, byteoffset_eq_zero h, Nat.cast_zero, add_zero]
  rw [if_pos (by norm_num : (-1 : Int) < 0)]
  congr 1
  omega

lemma getbyte_neg_one (s : ByteArray) (h : s.offset < 8) (hne : s.rawarray ≠ []) :
    s.getbyte (-1) = s.rawarray.getD (s.rawarray.length - 1) 0 := by
  have hlen : 1 ≤ s.rawarray.length := List.length_pos.mpr hne
  simp only [ByteArray.getbyte, pyGet, byteoffset_eq_zero h, Nat.cast_zero, add_zero]
  rw [if_pos (by norm_num : (-1 : Int) < 0)]
  congr 1
  omega

/-- Shape of `prependarray` when `self.offset = 0`: the realigned head's
bytes are followed by `self`'s addressed bytes verbatim. -/
lemma prependarray_eq_aligned (self arr : ByteArray) (ha0 : arr.bitlength ≠ 0)
    (hso : self.offset = 0) :
    prependarray self arr =
      some ⟨(offsetcopy arr (pymod8 ((self.offset : Int) - arr.bitlength))).rawarray ++
        self.rawarray.take self.bytelength,
        self.bitlength + (offsetcopy arr (pymod8 ((self.offset : Int) - arr.bitlength))).bitlength,
        (offsetcopy arr (pymod8 ((self.offset : Int) - arr.bitlength))).offset⟩ := by
  simp only [prependarray]
  rw [if_neg ha0, if_neg (fun h => h hso)]

/-- Shape of `prependarray` when `self.offset ≠ 0`: the realigned head's
last byte is merged with `self`'s first byte. -/
lemma prependarray_eq_join (self arr : ByteArray) (ha0 : arr.bitlength ≠ 0)
    (hso : self.offset ≠ 0) (hne : self.rawarray ≠ []) :
    prependarray self arr =
      some ⟨((offsetcopy arr (pymod8 ((self.offset : Int) - arr.bitlength))).setbyte (-1)
          (((offsetcopy arr (pymod8 ((self.offset : Int) - arr.bitlength))).getbyte (-1) &&&
            (255 ^^^ (255 >>> self.offset))) |||
           (self.rawarray.getD 0 0 &&& (255 >>> self.offset)))).rawarray ++
        (self.rawarray.drop 1).take (self.bytelength - 1),
        self.bitlength + (offsetcopy arr (pymod8 ((self.offset : Int) - arr.bitlength))).bitlength,
        (offsetcopy arr (pymod8 ((self.offset : Int) - arr.bitlength))).offset⟩ := by
  obtain ⟨b0, rest, hbr⟩ := List.exists_cons_of_ne_nil hne
  simp only [prependarray]
  rw [if_neg ha0, if_pos hso, hbr, List.getD_cons_zero]

/-- Core of the `prependarray` join case, phrased on raw lists: `A` holds
the realigned prefix bits at `[M, M + blA)` ending exactly at bit `oS` of
its last byte; merging `S`'s first byte into that last byte and appending
`S`'s remaining addressed bytes preserves the prefix bits and places `S`'s
bits right after them. -/
lemma prepend_join_core (A S : Bytes) (oS M blA blS blenS : Nat)
    (hokA : okBytes A) (hokS : okBytes S)
    (hoS8 : oS < 8) (hoS0 : oS ≠ 0)
    (h8 : M + blA = 8 * (A.length - 1) + oS)
    (hA1 : 1 ≤ A.length)
    (hbyteS : ∀ p, p < blS → (oS + p) / 8 < blenS) :
    okBytes ((A.set (A.length - 1)
        ((A.getD (A.length - 1) 0 &&& (255 ^^^ (255 >>> oS))) |||
         (S.getD 0 0 &&& (255 >>> oS)))) ++ (S.drop 1).take (blenS - 1)) ∧
    (∀ p, p < blA →
      bitval ((A.set (A.length - 1)
          ((A.getD (A.length - 1) 0 &&& (255 ^^^ (255 >>> oS))) |||
           (S.getD 0 0 &&& (255 >>> oS)))) ++ (S.drop 1).take (blenS - 1)) (M + p) =
        bitval A (M + p)) ∧
    (∀ p, p < blS →
      bitval ((A.set (A.length - 1)
          ((A.getD (A.length - 1) 0 &&& (255 ^^^ (255 >>> oS))) |||
           (S.getD 0 0 &&& (255 >>> oS)))) ++ (S.drop 1).take (blenS - 1)) (M + blA + p) =
        bitval S (oS + p)) := by
  have hsetlen : (A.set (A.length - 1)
      ((A.getD (A.length - 1) 0 &&& (255 ^^^ (255 >>> oS))) |||
       (S.getD 0 0 &&& (255 >>> oS)))).length = A.length := List.length_set A _ _
  have hjoinlt : (A.getD (A.length - 1) 0 &&& (255 ^^^ (255 >>> oS))) |||
      (S.getD 0 0 &&& (255 >>> oS)) < 256 :=
    lor_lt_256 (Nat.lt_of_le_of_lt Nat.and_le_left (okBytes_getD hokA _))
      (Nat.lt_of_le_of_lt Nat.and_le_left (okBytes_getD hokS 0))
  refine ⟨?_, ?_, ?_⟩
  · apply okBytes_append
    · apply okBytes_of_getD
      intro i hi
      rw [hsetlen] at hi
      by_cases hieq : i = A.length - 1
      · rw [hieq, getD_set_self _ _ _ (by omega)]
        exact hjoinlt
      · rw [getD_set_ne _ (fun h => hieq h.symm) _]
        exact okBytes_getD hokA i
    · exact okBytes_sublist ((List.take_sublist _ _).trans (List.drop_sublist _ _)) hokS
  · intro p hp
    rcases Nat.lt_or_ge ((M + p) / 8) (A.length - 1) with hI | hI
    · unfold bitval
      rw [getD_append_lt _ _ _ (by omega), getD_set_ne _ (by omega) _]
    · have hIeq : (M + p) / 8 = A.length - 1 := by omega
      have hjm : (M + p) % 8 < oS := by omega
      unfold bitval
      rw [getD_append_lt _ _ _ (by omega), hIeq, getD_set_self _ _ _ (by omega),
        join_bit _ _ _ _ hoS8 (by omega), if_pos hjm]
  · intro p hp
    rcases Nat.lt_or_ge (oS + p) 8 with hsm | hsm
    · have hIeq : (M + blA + p) / 8 = A.length - 1 := by omega
      have hjeq : (M + blA + p) % 8 = oS + p := by omega
      unfold bitval
      rw [getD_append_lt _ _ _ (by omega), hIeq, getD_set_self _ _ _ (by omega),
        join_bit _ _ _ _ hoS8 (by omega), if_neg (by omega), hjeq,
        show (oS + p) / 8 = 0 from by omega, show (oS + p) % 8 = oS + p from by omega]
    · have hIge : A.length ≤ (M + blA + p) / 8 := by omega
      have hk : (M + blA + p) / 8 - A.length < blenS - 1 := by
        have := hbyteS p hp
        omega
      unfold bitval
      rw [getD_append_ge _ _ _ (by omega), hsetlen, getD_take_lt _ _ _ hk, getD_drop,
        show 1 + ((M + blA + p) / 8 - A.length) = (oS + p) / 8 from by omega,
        show (M + blA + p) % 8 = (oS + p) % 8 from by omega]

/-- Correctness of `prependarray` for in-memory buffers with offsets below
8: the result holds `arr`'s bits followed by `self`'s bits, starting at the
realigned offset.  `self`'s raw array must be nonempty when its offset is
nonzero (otherwise Python crashes reading `_rawarray[0]`). -/
lemma prependarray_correct (self arr : ByteArray)
    (hoks : okBytes self.rawarray) (hoka : okBytes arr.rawarray)
    (hoffs : self.offset < 8) (hoffa : arr.offset < 8)
    (hcova : arr.bytelength ≤ arr.rawarray.length)
    (hz : self.offset ≠ 0 → self.rawarray ≠ []) :
    ∃ c, prependarray self arr = some c ∧
      okBytes c.rawarray ∧
      c.bitlength = self.bitlength + arr.bitlength ∧
      (c.offset + arr.bitlength) % 8 = self.offset ∧
      c.offset < 8 ∧
      (∀ p, p < arr.bitlength →
        bitval c.rawarray (c.offset + p) = bitval arr.rawarray (arr.offset + p)) ∧
      (∀ p, p < self.bitlength →
        bitval c.rawarray (c.offset + arr.bitlength + p) = bitval self.rawarray (self.offset + p)) := by
  by_cases ha0 : arr.bitlength = 0
  · refine ⟨self, ?_, hoks, by omega, ?_, hoffs, fun p hp => absurd hp (by omega), fun p hp => ?_⟩
    · simp only [prependarray]
      rw [if_pos ha0]
    · rw [ha0, Nat.add_zero]
      exact Nat.mod_eq_of_lt hoffs
    · rw [ha0, Nat.add_zero]
  · have hm8 : pymod8 ((self.offset : Int) - arr.bitlength) < 8 := pymod8_lt _
    have hmod : (pymod8 ((self.offset : Int) - arr.bitlength) + arr.bitlength) % 8 =
        self.offset := by
      unfold pymod8
      omega
    obtain ⟨hco, hcb, hclen, hcok, hcbits⟩ :=
      offsetcopy_correct arr (pymod8 ((self.offset : Int) - arr.bitlength)) hoka hoffa hm8
        hcova ha0
    by_cases hso : self.offset = 0
    · -- aligned: the realigned head ends on a byte boundary
      have h8 : 8 * (offsetcopy arr (pymod8 ((self.offset : Int) - arr.bitlength))).rawarray.length =
          pymod8 ((self.offset : Int) - arr.bitlength) + arr.bitlength := by omega
      refine ⟨_, prependarray_eq_aligned self arr ha0 hso, ?_, ?_, ?_, ?_, ?_, ?_⟩
      · exact okBytes_append hcok (okBytes_sublist (List.take_sublist _ _) hoks)
      · show self.bitlength + _ = _
        omega
      · show ((offsetcopy arr _).offset + arr.bitlength) % 8 = self.offset
        rw [hco]
        exact hmod
      · show (offsetcopy arr _).offset < 8
        omega
      · intro p hp
        show bitval _ ((offsetcopy arr _).offset + p) = _
        rw [hco, bitval_append_lt _ _ _ (by omega)]
        exact hcbits p hp
      · intro p hp
        show bitval _ ((offsetcopy arr _).offset + arr.bitlength + p) = _
        rw [hco, bitval_append_ge _ _ _ (by omega)]
        have hbyte : (self.offset + p) / 8 < self.bytelength := by
          rw [bytelength_eq hoffs (by omega)]
          omega
        unfold bitval
        rw [show pymod8 ((self.offset : Int) - arr.bitlength) + arr.bitlength + p -
            8 * (offsetcopy arr (pymod8 ((self.offset : Int) - arr.bitlength))).rawarray.length =
            self.offset + p from by omega]
        rw [getD_take_lt _ _ _ hbyte]
    · -- join: merge self's first byte into the realigned head's last byte
      have hne : self.rawarray ≠ [] := hz hso
      have hcne : (offsetcopy arr (pymod8 ((self.offset : Int) - arr.bitlength))).rawarray ≠ [] :=
        List.length_pos.mp (by omega)
      have h8 : pymod8 ((self.offset : Int) - arr.bitlength) + arr.bitlength =
          8 * ((offsetcopy arr (pymod8 ((self.offset : Int) -
            arr.bitlength))).rawarray.length - 1) + self.offset := by omega
      have hbyteS : ∀ p, p < self.bitlength → (self.offset + p) / 8 < self.bytelength := by
        intro p hp
        rw [bytelength_eq hoffs (by omega)]
        omega
      obtain ⟨hok2, hbitsA, hbitsS⟩ := prepend_join_core
        (offsetcopy arr (pymod8 ((self.offset : Int) - arr.bitlength))).rawarray
        self.rawarray self.offset (pymod8 ((self.offset : Int) - arr.bitlength))
        arr.bitlength self.bitlength self.bytelength hcok hoks hoffs hso h8 (by omega) hbyteS
      have hshape := prependarray_eq_join self arr ha0 hso hne
      rw [setbyte_neg_one _ (by omega) hcne, getbyte_neg_one _ (by omega) hcne] at hshape
      refine ⟨_, hshape, hok2, ?_, ?_, ?_, ?_, ?_⟩
      · dsimp only
        omega
      · dsimp only
        rw [hco]
        exact hmod
      · dsimp only
        rw [hco]
        exact hm8
      · intro p hp
        dsimp only
        rw [hco]
        exact (hbitsA p hp).trans (hcbits p hp)
      · intro p hp
        dsimp only
        rw [hco]
        exact hbitsS p hp

lemma Store.read_write_ne (st : Store) {r r2 : Nat} (hne : r ≠ r2) (v : Bytes) :
    (st.write r v).read r2 = st.read r2 := by
  unfold Store.read Store.write
  rw [List.getD_eq_getElem?_getD, List.getElem?_set_ne hne, ← List.getD_eq_getElem?_getD]

lemma Store.read_alloc_lt (st : Store) {r : Nat} (hr : r < st.cells.length) (v : Bytes) :
    (st.alloc v).read r = st.read r := by
  unfold Store.read Store.alloc
  exact List.getD_append _ _ _ _ hr

lemma derefH_write_ne (st : Store) {r : Nat} (h : HByteArray) (hne : r ≠ h.ref) (v : Bytes) :
    derefH (st.write r v) h = derefH st h := by
  unfold derefH
  rw [Store.read_write_ne st hne]

lemma derefH_alloc (st : Store) (h : HByteArray) (hr : h.ref < st.cells.length) (v : Bytes) :
    derefH (st.alloc v) h = derefH st h := by
  unfold derefH
  rw [Store.read_alloc_lt st hr]

/-! ### The byte expressions computed by `equal` as bit-stream extracts -/

lemma extract_shl_mask {d : Bytes} {t : Nat} (o8 w : Nat) :
    (extractN d t (o8 + w) <<< o8) &&& (2 ^ (o8 + w) - 1) = extractN d (t + o8) w * 2 ^ o8 := by
  rw [Nat.shiftLeft_eq, and_two_pow_sub_one, pow_add, Nat.mul_comm (2 ^ o8) (2 ^ w),
    Nat.mul_mod_mul_right, extractN_mod]

lemma shifted_extract_shr {d : Bytes} {t : Nat} (o8 bl j : Nat) :
    (extractN d t (bl + j) * 2 ^ o8) >>> (j + o8) = extractN d t bl := by
  rw [Nat.shiftRight_eq_div_pow, pow_add, Nat.mul_div_mul_right _ _ (Nat.two_pow_pos o8)]
  exact extractN_div d t bl j

lemma extract_shr {d : Bytes} {t : Nat} (m k : Nat) :
    extractN d t (m + k) >>> k = extractN d t m := by
  rw [Nat.shiftRight_eq_div_pow]
  exact extractN_div d t m k

lemma extract_and_mask {d : Bytes} {t : Nat} (m k : Nat) (hk : k ≤ 8) :
    extractN d t (m + k) &&& (255 >>> (8 - k)) = extractN d (t + m) k := by
  rw [mask_shiftRight (8 - k) (by omega), show 8 - (8 - k) = k from by omega,
    and_two_pow_sub_one]
  exact extractN_mod d t m k

lemma extract_and_255 {d : Bytes} {t : Nat} (m : Nat) :
    extractN d t (m + 8) &&& 255 = extractN d (t + m) 8 := by
  rw [and_255, show (256 : Nat) = 2 ^ 8 from by norm_num]
  exact extractN_mod d t m 8

/-- The single-byte comparison value `((d[bo] << o8) & 0xff) >> (8 - bl)` is
the `bl`-bit field at stream position `8 bo + o8`. -/
lemma single_byte_val (d : Bytes) (bo o8 bl : Nat) (hb : d.getD bo 0 < 256)
    (ho : o8 + bl ≤ 8) :
    ((d.getD bo 0 <<< o8) &&& 255) >>> (8 - bl) = extractN d (8 * bo + o8) bl := by
  obtain ⟨j, hj⟩ : ∃ j, 8 = o8 + (bl + j) := ⟨8 - o8 - bl, by omega⟩
  have hB : d.getD bo 0 = extractN d (8 * bo) (o8 + (bl + j)) := by
    rw [← hj, byte_extractN d bo hb]
  have h255 : (255 : Nat) = 2 ^ (o8 + (bl + j)) - 1 := by
    rw [← hj]
    norm_num
  have hshr : 8 - bl = j + o8 := by omega
  rw [hB, h255, extract_shl_mask, hshr, shifted_extract_shr]

/-- The two-byte comparison value used when the first buffer fits in one
byte but the second straddles two. -/
lemma two_byte_val (d : Bytes) (bo o8 bl : Nat) (hb1 : d.getD bo 0 < 256)
    (hb2 : d.getD (bo + 1) 0 < 256) (ho : o8 + bl ≤ 16) :
    ((((d.getD bo 0 <<< 8) + d.getD (bo + 1) 0) <<< o8) &&& 65535) >>> (16 - bl) =
      extractN d (8 * bo + o8) bl := by
  obtain ⟨j, hj⟩ : ∃ j, 16 = o8 + (bl + j) := ⟨16 - o8 - bl, by omega⟩
  have hB : (d.getD bo 0 <<< 8) + d.getD (bo + 1) 0 = extractN d (8 * bo) (o8 + (bl + j)) := by
    rw [← hj]
    exact two_byte_extractN d bo hb1 hb2
  have h65535 : (65535 : Nat) = 2 ^ (o8 + (bl + j)) - 1 := by
    rw [← hj]
    norm_num
  have hshr : 16 - bl = j + o8 := by omega
  rw [hB, h65535, extract_shl_mask, hshr, shifted_extract_shr]

/-- Completeness of the ordered comparison body for two in-memory buffers:
if the bit sequences agree then `equalCore` answers `true`. -/
lemma equalCore_mem_true (a b : ByteArray) (hoa : okBytes a.rawarray) (hob : okBytes b.rawarray)
    (hlen : a.bitlength = b.bitlength) (hbl : a.bitlength ≠ 0)
    (hord : a.offset % 8 ≤ b.offset % 8)
    (hbits : ∀ p, p < a.bitlength →
      bitval a.rawarray (a.offset + p) = bitval b.rawarray (b.offset + p)) :
    equalCore (.mem a) (.mem b) = true := by
  have hchunk : ∀ s n, s + n ≤ a.bitlength →
      extractN a.rawarray (a.offset + s) n = extractN b.rawarray (b.offset + s) n := by
    intro s n hsn
    apply extractN_eq_of_bitval_eq
    intro j hj
    have h := hbits (s + j) (by omega)
    simp only [← Nat.add_assoc] at h
    exact h
  have hboA : a.byteoffset = a.offset / 8 := rfl
  have hboB : b.byteoffset = b.offset / 8 := rfl
  have hblA : a.bytelength = (a.offset + a.bitlength - 1) / 8 - a.offset / 8 + 1 := by
    rw [ByteArray.bytelength, if_neg hbl]
  have hblB : b.bytelength = (b.offset + b.bitlength - 1) / 8 - b.offset / 8 + 1 := by
    rw [ByteArray.bytelength, if_neg (by omega)]
  have hA : 8 * a.byteoffset + a.offset % 8 = a.offset := by omega
  have hB : 8 * b.byteoffset + b.offset % 8 = b.offset := by omega
  simp only [equalCore, Buf.bitlength, Buf.offset, Buf.byteoffset, Buf.bytelength, Buf.d,
    Buf.dataIs]
  by_cases hfast : (a.rawarray == b.rawarray) = true ∧ a.offset = b.offset
  · rw [if_pos hfast]
  · rw [if_neg hfast]
    by_cases hal : a.offset % 8 = b.offset % 8
    · rw [if_pos hal]
      by_cases ha1 : a.bytelength = 1
      · rw [if_pos ha1, beq_iff_eq,
          single_byte_val a.rawarray a.byteoffset (a.offset % 8) a.bitlength
            (okBytes_getD hoa _) (by omega),
          single_byte_val b.rawarray b.byteoffset (b.offset % 8) b.bitlength
            (okBytes_getD hob _) (by omega),
          hA, hB, ← hlen]
        have h := hchunk 0 a.bitlength (by omega)
        simpa using h
      · rw [if_neg ha1]
        have hfirst : a.rawarray.getD a.byteoffset 0 &&& (255 >>> (a.offset % 8)) =
            b.rawarray.getD b.byteoffset 0 &&& (255 >>> (b.offset % 8)) := by
          rw [byte_and_maskRight a.rawarray a.byteoffset (a.offset % 8)
              (okBytes_getD hoa _) (by omega),
            byte_and_maskRight b.rawarray b.byteoffset (b.offset % 8)
              (okBytes_getD hob _) (by omega), hA, hB, ← hal]
          have h := hchunk 0 (8 - a.offset % 8) (by omega)
          simpa using h
        rw [if_neg (fun hne => hne hfirst)]
        have hall : ((List.range' (1 + a.byteoffset) (a.bytelength - 2)).all fun x =>
            a.rawarray.getD x 0 == b.rawarray.getD (b.byteoffset + (x - a.byteoffset)) 0) =
            true := by
          rw [List.all_eq_true]
          intro x hx
          rw [List.mem_range'_1] at hx
          simp only [beq_iff_eq]
          rw [← byte_extractN a.rawarray x (okBytes_getD hoa x),
            ← byte_extractN b.rawarray (b.byteoffset + (x - a.byteoffset)) (okBytes_getD hob _)]
          obtain ⟨s, hs1, hs2, hs3⟩ : ∃ s, 8 * x = a.offset + s ∧
              8 * (b.byteoffset + (x - a.byteoffset)) = b.offset + s ∧ s + 8 ≤ a.bitlength :=
            ⟨8 * x - a.offset, by omega, by omega, by omega⟩
          rw [hs1, hs2]
          exact hchunk s 8 hs3
        rw [if_neg (not_not_intro hall)]
        have hspare : (if 8 - (a.offset % 8 + a.bitlength) % 8 = 8 then 0
            else 8 - (a.offset % 8 + a.bitlength) % 8) =
            8 - ((a.offset + a.bitlength - 1) % 8 + 1) := by
          by_cases hm : (a.offset % 8 + a.bitlength) % 8 = 0
          · rw [if_pos (by omega)]
            omega
          · rw [if_neg (by omega)]
            omega
        rw [hspare]
        have hlast : a.rawarray.getD (a.byteoffset + a.bytelength - 1) 0 >>>
              (8 - ((a.offset + a.bitlength - 1) % 8 + 1)) =
            b.rawarray.getD (b.byteoffset + b.bytelength - 1) 0 >>>
              (8 - ((a.offset + a.bitlength - 1) % 8 + 1)) := by
          rw [byte_shiftRight a.rawarray (a.byteoffset + a.bytelength - 1)
              (8 - ((a.offset + a.bitlength - 1) % 8 + 1)) (okBytes_getD hoa _) (by omega),
            byte_shiftRight b.rawarray (b.byteoffset + b.bytelength - 1)
              (8 - ((a.offset + a.bitlength - 1) % 8 + 1)) (okBytes_getD hob _) (by omega)]
          obtain ⟨s, hs1, hs2, hs3⟩ : ∃ s,
              8 * (a.byteoffset + a.bytelength - 1) = a.offset + s ∧
              8 * (b.byteoffset + b.bytelength - 1) = b.offset + s ∧
              s + (8 - (8 - ((a.offset + a.bitlength - 1) % 8 + 1))) = a.bitlength :=
            ⟨a.bitlength - ((a.offset + a.bitlength - 1) % 8 + 1), by omega, by omega, by omega⟩
          rw [hs1, hs2]
          exact hchunk s _ (Nat.le_of_eq hs3)
        rw [if_neg (fun hne => hne hlast)]
    · rw [if_neg hal]
      by_cases hb1 : b.bytelength = 1
      · rw [if_pos hb1, beq_iff_eq,
          single_byte_val a.rawarray a.byteoffset (a.offset % 8) a.bitlength
            (okBytes_getD hoa _) (by omega),
          single_byte_val b.rawarray b.byteoffset (b.offset % 8) b.bitlength
            (okBytes_getD hob _) (by omega),
          hA, hB, ← hlen]
        have h := hchunk 0 a.bitlength (by omega)
        simpa using h
      · rw [if_neg hb1]
        by_cases ha1 : a.bytelength = 1
        · rw [if_pos ha1, beq_iff_eq,
            single_byte_val a.rawarray a.byteoffset (a.offset % 8) a.bitlength
              (okBytes_getD hoa _) (by omega),
            two_byte_val b.rawarray b.byteoffset (b.offset % 8) b.bitlength
              (okBytes_getD hob _) (okBytes_getD hob _) (by omega),
            hA, hB, ← hlen]
          have h := hchunk 0 a.bitlength (by omega)
          simpa using h
        · rw [if_neg ha1]
          have hfirst : (a.rawarray.getD a.byteoffset 0 &&& (255 >>> (a.offset % 8))) >>>
                (b.offset % 8 - a.offset % 8) =
              b.rawarray.getD b.byteoffset 0 &&& (255 >>> (b.offset % 8)) := by
            rw [byte_and_maskRight a.rawarray a.byteoffset (a.offset % 8)
                (okBytes_getD hoa _) (by omega),
              byte_and_maskRight b.rawarray b.byteoffset (b.offset % 8)
                (okBytes_getD hob _) (by omega),
              show 8 - a.offset % 8 =
                (8 - b.offset % 8) + (b.offset % 8 - a.offset % 8) from by omega,
              extract_shr, hA, hB]
            have h := hchunk 0 (8 - b.offset % 8) (by omega)
            simpa using h
          rw [if_neg (fun hne => hne hfirst)]
          have hall : ((List.range' 1 (b.bytelength - 2)).all fun x =>
              (((a.rawarray.getD (a.byteoffset + x - 1) 0 <<< 8) +
                  a.rawarray.getD (a.byteoffset + x) 0) >>>
                (b.offset % 8 - a.offset % 8)) &&& 255 ==
              b.rawarray.getD (b.byteoffset + x) 0) = true := by
            rw [List.all_eq_true]
            intro x hx
            rw [List.mem_range'_1] at hx
            simp only [beq_iff_eq]
            generalize hy : a.byteoffset + x - 1 = y
            rw [show a.byteoffset + x = y + 1 from by omega,
              two_byte_extractN a.rawarray y (okBytes_getD hoa _) (okBytes_getD hoa _),
              show (16 : Nat) = ((8 - (b.offset % 8 - a.offset % 8)) + 8) +
                (b.offset % 8 - a.offset % 8) from by omega,
              extract_shr, extract_and_255,
              ← byte_extractN b.rawarray (b.byteoffset + x) (okBytes_getD hob _)]
            obtain ⟨s, hs1, hs2, hs3⟩ : ∃ s,
                8 * y + (8 - (b.offset % 8 - a.offset % 8)) = a.offset + s ∧
                8 * (b.byteoffset + x) = b.offset + s ∧ s + 8 ≤ a.bitlength :=
              ⟨8 * x - b.offset % 8, by omega, by omega, by omega⟩
            rw [hs1, hs2]
            exact hchunk s 8 hs3
          rw [if_neg (not_not_intro hall)]
          have hfb : (if (b.offset + b.bitlength) % 8 = 0 then 8
              else (b.offset + b.bitlength) % 8) = (b.offset + b.bitlength - 1) % 8 + 1 := by
            by_cases hm : (b.offset + b.bitlength) % 8 = 0
            · rw [if_pos hm]
              omega
            · rw [if_neg hm]
              omega
          have hfa : (if (a.offset + a.bitlength) % 8 = 0 then 8
              else (a.offset + a.bitlength) % 8) = (a.offset + a.bitlength - 1) % 8 + 1 := by
            by_cases hm : (a.offset + a.bitlength) % 8 = 0
            · rw [if_pos hm]
              omega
            · rw [if_neg hm]
              omega
          rw [hfb, hfa]
          by_cases hgt : b.bytelength > a.bytelength
          · rw [if_pos hgt, beq_iff_eq,
              byte_shiftRight a.rawarray (a.byteoffset + a.bytelength - 1)
                (8 - ((a.offset + a.bitlength - 1) % 8 + 1)) (okBytes_getD hoa _) (by omega),
              byte_shiftRight b.rawarray (b.byteoffset + b.bytelength - 1)
                (8 - ((b.offset + b.bitlength - 1) % 8 + 1)) (okBytes_getD hob _) (by omega),
              show 8 - (8 - ((a.offset + a.bitlength - 1) % 8 + 1)) =
                (((a.offset + a.bitlength - 1) % 8 + 1) -
                  ((b.offset + b.bitlength - 1) % 8 + 1)) +
                  ((b.offset + b.bitlength - 1) % 8 + 1) from by omega,
              extract_and_mask _ _ (by omega),
              show 8 - (8 - ((b.offset + b.bitlength - 1) % 8 + 1)) =
                (b.offset + b.bitlength - 1) % 8 + 1 from by omega]
            obtain ⟨s, hs1, hs2, hs3⟩ : ∃ s,
                8 * (a.byteoffset + a.bytelength - 1) +
                  (((a.offset + a.bitlength - 1) % 8 + 1) -
                    ((b.offset + b.bitlength - 1) % 8 + 1)) = a.offset + s ∧
                8 * (b.byteoffset + b.bytelength - 1) = b.offset + s ∧
                s + ((b.offset + b.bitlength - 1) % 8 + 1) ≤ a.bitlength :=
              ⟨a.bitlength - ((b.offset + b.bitlength - 1) % 8 + 1),
                by omega, by omega, by omega⟩
            rw [hs1, hs2]
            exact hchunk s _ hs3
          · rw [if_neg hgt, beq_iff_eq]
            generalize hy : a.byteoffset + a.bytelength - 2 = y
            rw [show a.byteoffset + a.bytelength - 1 = y + 1 from by omega,
              two_byte_extractN a.rawarray y (okBytes_getD hoa _) (okBytes_getD hoa _),
              byte_shiftRight b.rawarray (b.byteoffset + b.bytelength - 1)
                (8 - ((b.offset + b.bitlength - 1) % 8 + 1)) (okBytes_getD hob _) (by omega),
              show (16 : Nat) = (8 + ((a.offset + a.bitlength - 1) % 8 + 1)) +
                (8 - ((a.offset + a.bitlength - 1) % 8 + 1)) from by omega,
              extract_shr,
              show 8 + ((a.offset + a.bitlength - 1) % 8 + 1) =
                ((8 + ((a.offset + a.bitlength - 1) % 8 + 1)) -
                  ((b.offset + b.bitlength - 1) % 8 + 1)) +
                  ((b.offset + b.bitlength - 1) % 8 + 1) from by omega,
              extract_and_mask _ _ (by omega),
              show 8 - (8 - ((b.offset + b.bitlength - 1) % 8 + 1)) =
                (b.offset + b.bitlength - 1) % 8 + 1 from by omega]
            obtain ⟨s, hs1, hs2, hs3⟩ : ∃ s,
                8 * y + ((8 + ((a.offset + a.bitlength - 1) % 8 + 1)) -
                  ((b.offset + b.bitlength - 1) % 8 + 1)) = a.offset + s ∧
                8 * (b.byteoffset + b.bytelength - 1) = b.offset + s ∧
                s + ((b.offset + b.bitlength - 1) % 8 + 1) ≤ a.bitlength :=
              ⟨a.bitlength - ((b.offset + b.bitlength - 1) % 8 + 1),
                by omega, by omega, by omega⟩
            rw [hs1, hs2]
            exact hchunk s _ hs3

/-- Completeness of `equal` for two in-memory buffers: equal bitlengths and
pointwise equal bits make it answer `true`. -/
lemma equal_complete (a b : ByteArray) (hoa : okBytes a.rawarray) (hob : okBytes b.rawarray)
    (hlen : a.bitlength = b.bitlength)
    (hbits : ∀ p, p < a.bitlength →
      bitval a.rawarray (a.offset + p) = bitval b.rawarray (b.offset + p)) :
    equal (.mem a) (.mem b) = true := by
  rw [equal, if_neg (by simp only [Buf.bitlength]; omega)]
  by_cases h0 : a.bitlength = 0
  · rw [if_pos (by simp only [Buf.bitlength]; omega)]
  · rw [if_neg (by simp only [Buf.bitlength]; omega)]
    by_cases hsw : (Buf.mem a).offset % 8 > (Buf.mem b).offset % 8
    · rw [if_pos hsw]
      simp only [Buf.offset] at hsw
      refine equalCore_mem_true b a hob hoa hlen.symm (by omega) (by omega) ?_
      intro p hp
      exact (hbits p (by omega)).symm
    · rw [if_neg hsw]
      simp only [Buf.offset] at hsw
      exact equalCore_mem_true a b hoa hob hlen h0 (by omega) hbits

/-! ### Claim theorems -/

/-- Claim C8 (confirmed): for an in-memory buffer, `getbit(pos)` computes
`(byte, bit) = divmod(offset + pos, 8)` and returns bit `7 - bit` (MSB-first,
bit 0 has mask 0x80) of storage byte `byte`; concretely, storage byte
0b10110100 with offset 2 and bitlength 4 has logical bits 1101. -/
theorem claim_C8_getbit_msb_first :
    (∀ (s : ByteArray) (pos : Nat), pos < s.bitlength →
      s.getbit pos = (s.rawarray.getD ((s.offset + pos) / 8) 0).testBit (7 - (s.offset + pos) % 8)) ∧
    ((ByteArray.mk [180] 4 2).getbit 0 = true ∧
     (ByteArray.mk [180] 4 2).getbit 1 = true ∧
     (ByteArray.mk [180] 4 2).getbit 2 = false ∧
     (ByteArray.mk [180] 4 2).getbit 3 = true) := by
  constructor
  · intro s pos _
    simp only [ByteArray.getbit]
    have hk8 : (s.offset + pos) % 8 < 8 := Nat.mod_lt _ (by norm_num)
    rw [shift128 _ hk8, and_two_pow_bne]
  · exact ⟨by decide, by decide, by decide, by decide⟩

theorem claim_C8_witness :
    (0 : Nat) < (ByteArray.mk [180] 4 2).bitlength ∧
    (ByteArray.mk [180] 4 2).getbit 0 =
      ((ByteArray.mk [180] 4 2).rawarray.getD
        (((ByteArray.mk [180] 4 2).offset + 0) / 8) 0).testBit
        (7 - ((ByteArray.mk [180] 4 2).offset + 0) % 8) :=
  ⟨by decide, claim_C8_getbit_msb_first.1 (ByteArray.mk [180] 4 2) 0 (by decide)⟩

/-- Claim C5 counterexample: `slice` does not keep the offset in `[0, 8)`:
slicing 4 bits at bit 9 out of a 16-bit buffer at offset 0 yields a buffer
whose `offset` field is 9. -/
theorem claim_C5_counterexample :
    (slice (ByteArray.mk [170, 187] 16 0) 4 9).offset = 9 ∧
    ¬ (slice (ByteArray.mk [170, 187] 16 0) 4 9).offset < 8 := by
  decide

/-- Claim C5 (amended): file construction establishes `offset < 8`, and
`copy`, `offsetcopy`, `appendarray` and `prependarray` keep offsets in
`[0, 8)` when their inputs are; `slice`, however, returns
`ba.offset + offset`, which can be 8 or more, and raw construction stores
the given offset unvalidated. -/
theorem claim_C5_offset_invariant_amended :
    (∀ (src : Bytes) (bl : Option Nat) (off : Nat) (f : FileArray),
        FileArray.init src bl off = .ok f → f.offset < 8) ∧
    (∀ s : ByteArray, s.offset < 8 → s.copy.offset < 8) ∧
    (∀ f : FileArray, f.offset < 8 → f.copy.offset < 8) ∧
    (∀ (s : ByteArray) (n : Nat), s.offset < 8 → n < 8 → (offsetcopy s n).offset < 8) ∧
    (∀ (f : FileArray) (n : Nat), f.offset < 8 → n < 8 → (offsetcopyFile f n).offset < 8) ∧
    (∀ (self arr c : ByteArray), self.offset < 8 → appendarray self arr = some c →
      c.offset < 8) ∧
    (∀ (self arr c : ByteArray), self.offset < 8 → prependarray self arr = some c →
      c.offset < 8) := by
  refine ⟨?_, ?_, ?_, ?_, ?_, ?_, ?_⟩
  · intro src bl off f h
    unfold FileArray.init at h
    cases bl with
    | none =>
        simp only at h
        split at h
        · cases h
        · simp only [Except.ok.injEq] at h
          rw [← h]
          exact Nat.mod_lt _ (by norm_num)
    | some bl =>
        simp only at h
        split at h
        · cases h
        · simp only [Except.ok.injEq] at h
          rw [← h]
          exact Nat.mod_lt _ (by norm_num)
  · intro s h; exact h
  · intro f h; exact h
  · intro s n hs hn
    rw [offsetcopy_offset]
    split <;> assumption
  · intro f n hf hn
    unfold offsetcopyFile
    split
    · exact hf
    · split
      · exact hn
      · split <;> exact hn
  · intro self arr c hs h
    rw [appendarray_offset h]
    exact hs
  · intro self arr c hs h
    rcases prependarray_offset h with h1 | ⟨_, h1⟩
    · rw [h1]; exact hs
    · rw [h1]; exact pymod8_lt _

theorem claim_C5_witness :
    (ByteArray.mk [15] 4 4).offset < 8 ∧ (3 : Nat) < 8 ∧
    (offsetcopy (ByteArray.mk [15] 4 4) 3).offset < 8 :=
  ⟨by decide, by decide,
    claim_C5_offset_invariant_amended.2.2.2.1 (ByteArray.mk [15] 4 4) 3 (by decide) (by decide)⟩

/-- Claim C2 counterexample: when buffer a's raw storage extends one junk
byte past its addressed region (raw [0xF0, 0x00], offset 0, bitlength 4),
`appendarray` pops the junk byte instead of the region's last byte: appending
b = 1111 yields 11110000 instead of 11111111, and the slice that should
equal b is not structurally equal to it (its bits are 0000). -/
theorem claim_C2_counterexample :
    appendarray (ByteArray.copy (ByteArray.mk [240, 0] 4 0)) (ByteArray.mk [240] 4 0) =
      some (ByteArray.mk [240, 15] 8 0) ∧
    equal (.mem (slice (ByteArray.mk [240, 15] 8 0) 4 4)) (.mem (ByteArray.mk [240] 4 0)) =
      false ∧
    (slice (ByteArray.mk [240, 15] 8 0) 4 4).getbit 0 = false ∧
    (ByteArray.mk [240] 4 0).getbit 0 = true := by
  decide

/-- Claim C3 counterexample: b = (raw [], bitlength 0, offset 3) is a valid
buffer (its region needs no storage bytes), yet `prependarray` onto a copy
of it reads `_rawarray[0]` and crashes with an IndexError (modelled as
`none`), so the claimed postconditions do not hold for this pair. -/
theorem claim_C3_counterexample :
    prependarray (ByteArray.copy (ByteArray.mk [] 0 3)) (ByteArray.mk [128] 1 0) = none := by
  decide

/-- Claim C2 (corrected): for buffers `a`, `b` with offsets in `[0,8)`,
provided `b`'s storage covers its addressed region and `a`'s raw array is
exactly the bytes addressing `a`'s region (the original claim fails with
trailing spare raw bytes, because `appendarray` pops the last raw byte):
`appendarray (copy a) b` succeeds, the result has bitlength
`a.bitlength + b.bitlength`, its first `a.bitlength` bits slice back
structurally equal to `a`, and the remaining bits structurally equal
to `b`. -/
theorem claim_C2_append_slices_amended (a b : ByteArray)
    (hoka : okBytes a.rawarray) (hokb : okBytes b.rawarray)
    (hoffa : a.offset < 8) (hoffb : b.offset < 8)
    (hcovb : b.bytelength ≤ b.rawarray.length)
    (hexact : a.rawarray.length = (a.offset + a.bitlength + 7) / 8) :
    ∃ c, appendarray a.copy b = some c ∧
      c.bitlength = a.bitlength + b.bitlength ∧
      equal (.mem (slice c a.bitlength 0)) (.mem a) = true ∧
      equal (.mem (slice c b.bitlength a.bitlength)) (.mem b) = true := by
  obtain ⟨c, hc, hok, hoff, hbl, hlenc, hbits1, hbits2⟩ :=
    appendarray_correct a b hoka hokb hoffa hoffb hcovb hexact
  refine ⟨c, hc, hbl, ?_, ?_⟩
  · apply equal_complete
    · exact hok
    · exact hoka
    · rfl
    · intro p hp
      show bitval c.rawarray (c.offset + 0 + p) = bitval a.rawarray (a.offset + p)
      rw [Nat.add_zero, hoff]
      exact hbits1 p hp
  · apply equal_complete
    · exact hok
    · exact hokb
    · rfl
    · intro p hp
      show bitval c.rawarray (c.offset + a.bitlength + p) = bitval b.rawarray (b.offset + p)
      rw [hoff]
      exact hbits2 p hp

theorem claim_C2_witness :
    (ByteArray.mk [204] 6 0).offset < 8 ∧ (ByteArray.mk [2] 2 6).offset < 8 ∧
    ∃ c, appendarray (ByteArray.mk [204] 6 0).copy (ByteArray.mk [2] 2 6) = some c ∧
      c.bitlength = (ByteArray.mk [204] 6 0).bitlength + (ByteArray.mk [2] 2 6).bitlength ∧
      equal (.mem (slice c (ByteArray.mk [204] 6 0).bitlength 0))
        (.mem (ByteArray.mk [204] 6 0)) = true ∧
      equal (.mem (slice c (ByteArray.mk [2] 2 6).bitlength (ByteArray.mk [204] 6 0).bitlength))
        (.mem (ByteArray.mk [2] 2 6)) = true :=
  ⟨by decide, by decide,
    claim_C2_append_slices_amended (ByteArray.mk [204] 6 0) (ByteArray.mk [2] 2 6)
      (by decide) (by decide) (by decide) (by decide) (by decide) (by decide)⟩

/-- Claim C3 (corrected): for buffers `a`, `b` with offsets in `[0,8)`,
provided the storage of `a` and of `b` covers their addressed regions and
`b`'s raw array is nonempty whenever `b.offset ≠ 0` (the original claim
fails for an empty-raw buffer with nonzero offset, where `prependarray`
crashes reading `_rawarray[0]`; without `b`'s coverage the later equality
checks would read past the short shared storage and crash):
`prependarray (copy b) a` succeeds, the result has bitlength
`a.bitlength + b.bitlength`, its first `a.bitlength` bits slice back
structurally equal to `a`, and the remaining bits structurally equal
to `b`. -/
theorem claim_C3_prepend_slices_amended (a b : ByteArray)
    (hoka : okBytes a.rawarray) (hokb : okBytes b.rawarray)
    (hoffa : a.offset < 8) (hoffb : b.offset < 8)
    (hcova : a.bytelength ≤ a.rawarray.length)
    (hcovb : b.bytelength ≤ b.rawarray.length)
    (hz : b.offset ≠ 0 → b.rawarray ≠ []) :
    ∃ c, prependarray b.copy a = some c ∧
      c.bitlength = a.bitlength + b.bitlength ∧
      equal (.mem (slice c a.bitlength 0)) (.mem a) = true ∧
      equal (.mem (slice c b.bitlength a.bitlength)) (.mem b) = true := by
  obtain ⟨c, hc, hok, hbl, hco8, hclt, hbits1, hbits2⟩ :=
    prependarray_correct b a hokb hoka hoffb hoffa hcova hz
  refine ⟨c, hc, by omega, ?_, ?_⟩
  · apply equal_complete
    · exact hok
    · exact hoka
    · rfl
    · intro p hp
      show bitval c.rawarray (c.offset + 0 + p) = bitval a.rawarray (a.offset + p)
      rw [Nat.add_zero]
      exact hbits1 p hp
  · apply equal_complete
    · exact hok
    · exact hokb
    · rfl
    · intro p hp
      show bitval c.rawarray (c.offset + a.bitlength + p) = bitval b.rawarray (b.offset + p)
      exact hbits2 p hp

theorem claim_C3_witness :
    (ByteArray.mk [192] 2 0).offset < 8 ∧ (ByteArray.mk [128] 1 0).offset < 8 ∧
    ∃ c, prependarray (ByteArray.mk [128] 1 0).copy (ByteArray.mk [192] 2 0) = some c ∧
      c.bitlength = (ByteArray.mk [192] 2 0).bitlength + (ByteArray.mk [128] 1 0).bitlength ∧
      equal (.mem (slice c (ByteArray.mk [192] 2 0).bitlength 0))
        (.mem (ByteArray.mk [192] 2 0)) = true ∧
      equal (.mem (slice c (ByteArray.mk [128] 1 0).bitlength
          (ByteArray.mk [192] 2 0).bitlength))
        (.mem (ByteArray.mk [128] 1 0)) = true :=
  ⟨by decide, by decide,
    claim_C3_prepend_slices_amended (ByteArray.mk [192] 2 0) (ByteArray.mk [128] 1 0)
      (by decide) (by decide) (by decide) (by decide) (by decide) (by decide) (by decide)⟩

/-- Claim C9 counterexample: for the in-memory buffer over raw bytes
[0xAA, 0xBB] with offset 0 and bitlength 8 (logical region = the single
byte 0xAA), `getbyte(-1)` returns the last raw byte 0xBB, not the last
byte 0xAA of the logical region. -/
theorem claim_C9_counterexample :
    (ByteArray.mk [170, 187] 8 0).bytelength = 1 ∧
    (ByteArray.mk [170, 187] 8 0).getbyte (-1) = 187 ∧
    (ByteArray.mk [170, 187] 8 0).rawarray.getD
      ((ByteArray.mk [170, 187] 8 0).byteoffset + 0) 0 = 170 ∧
    (187 : Nat) ≠ 170 := by
  decide

/-- Claim C9 (amended): for file-backed buffers a negative `pos` does index
from the end of the logical region; for in-memory buffers `getbyte` applies
Python negative indexing to the raw array, which coincides with the logical
region only when `byteoffset = 0` and the raw array is exactly `bytelength`
bytes long. -/
theorem claim_C9_getbyte_negative_amended :
    (∀ (f : FileArray) (pos : Int), -(f.bytelength : Int) ≤ pos → pos < 0 →
      f.getbyte pos = f.source.getD (f.byteoffset + (pos + f.bytelength).toNat) 0) ∧
    (∀ (a : ByteArray) (pos : Int), a.byteoffset = 0 →
      a.rawarray.length = a.bytelength → -(a.bytelength : Int) ≤ pos → pos < 0 →
      a.getbyte pos = a.rawarray.getD (a.byteoffset + (pos + a.bytelength).toNat) 0) := by
  constructor
  · intro f pos h1 h2
    simp only [FileArray.getbyte, if_pos h2]
    congr 1
    omega
  · intro a pos h0 hlen h1 h2
    simp only [ByteArray.getbyte, pyGet, h0]
    rw [if_pos (by omega : pos + (0 : Nat) < 0)]
    rw [hlen]
    congr 1
    omega

theorem claim_C9_witness :
    -((FileArray.mk [1, 2, 3] 2 16 1 0).bytelength : Int) ≤ -1 ∧ (-1 : Int) < 0 ∧
    (FileArray.mk [1, 2, 3] 2 16 1 0).getbyte (-1) =
      (FileArray.mk [1, 2, 3] 2 16 1 0).source.getD
        ((FileArray.mk [1, 2, 3] 2 16 1 0).byteoffset +
          ((-1 : Int) + (FileArray.mk [1, 2, 3] 2 16 1 0).bytelength).toNat) 0 :=
  ⟨by decide, by decide,
    claim_C9_getbyte_negative_amended.1 (FileArray.mk [1, 2, 3] 2 16 1 0) (-1)
      (by decide) (by decide)⟩

/-- Claim C1 (code bug, evaluation): `equal` is meant to decide whether
two buffers denote the same bit sequence regardless of backing
representation, but its single `try/except` rebinds both `da` and `db` to
the buffer objects on a mixed pair, and the in-memory classes define no
`__getitem__`: over the file [0xAA, 0xBB, 0xCC, 0xDD] with window offset 8
and bitlength 8 versus the in-memory buffer [0xBB] — two buffers denoting
the identical bit sequence 10111011 — `equal` raises `TypeError` at the
first subscript of the in-memory object instead of returning `True`. -/
theorem claim_C1_code_bug_eval :
    FileArray.init [170, 187, 204, 221] (some 8) 8 =
      .ok (FileArray.mk [170, 187, 204, 221] 1 8 1 0) ∧
    (Buf.file (FileArray.mk [170, 187, 204, 221] 1 8 1 0)).bitlength =
      (Buf.mem (ByteArray.mk [187] 8 0)).bitlength ∧
    ((List.range 8).all fun i =>
      (Buf.file (FileArray.mk [170, 187, 204, 221] 1 8 1 0)).getbit i ==
        (Buf.mem (ByteArray.mk [187] 8 0)).getbit i) = true ∧
    equalE (.file (FileArray.mk [170, 187, 204, 221] 1 8 1 0))
      (.mem (ByteArray.mk [187] 8 0)) = .error .typeError := by
  decide

/-- Claim C4 (code bug, evaluation): `offsetcopy` on a file-backed buffer
with `byteoffset = 1` reads the wrong file byte through `__getitem__`, so
the round trip `offsetcopy(offsetcopy(x, 4), x.offset % 8)` turns the bit
sequence 10111011 (file byte 0xBB) into 10111101: bit 5 flips. -/
theorem claim_C4_code_bug_eval :
    offsetcopyFile (FileArray.mk [170, 187, 204, 221] 1 8 1 0) 4 = ByteArray.mk [11, 208] 8 4 ∧
    offsetcopy (ByteArray.mk [11, 208] 8 4)
      ((FileArray.mk [170, 187, 204, 221] 1 8 1 0).offset % 8) = ByteArray.mk [189] 8 0 ∧
    (ByteArray.mk [189] 8 0).bitlength = (FileArray.mk [170, 187, 204, 221] 1 8 1 0).bitlength ∧
    (ByteArray.mk [189] 8 0).getbit 5 = true ∧
    (FileArray.mk [170, 187, 204, 221] 1 8 1 0).getbit 5 = false := by
  decide

/-- Claim C7 (code bug, evaluation): a file-backed buffer and an in-memory
buffer over the same single byte 0xAB, both addressing the whole byte
(offset 0, bitlength 8, byteoffset 0), never compare equal: the single
`try/except` of `equal` rebinds both `da` and `db` to the buffer objects
on a mixed pair, and the in-memory classes define no `__getitem__`, so
`equal` raises `TypeError` in both argument orders instead of returning
`True`. -/
theorem claim_C7_code_bug_eval :
    FileArray.init [171] (some 8) 0 = .ok (FileArray.mk [171] 1 8 0 0) ∧
    equalE (.file (FileArray.mk [171] 1 8 0 0)) (.mem (ByteArray.mk [171] 8 0)) =
      .error .typeError ∧
    equalE (.mem (ByteArray.mk [171] 8 0)) (.file (FileArray.mk [171] 1 8 0 0)) =
      .error .typeError ∧
    (Buf.file (FileArray.mk [171] 1 8 0 0)).bitlength =
      (Buf.mem (ByteArray.mk [171] 8 0)).bitlength ∧
    ((List.range 8).all fun i =>
      (Buf.file (FileArray.mk [171] 1 8 0 0)).getbit i ==
        (Buf.mem (ByteArray.mk [171] 8 0)).getbit i) = true := by
  decide

/-- Claim C6 (confirmed): constructing a file-backed buffer with an explicit
bitlength fails with the recoverable creation error exactly when the request
exceeds `(fileSize - byteoffset) * 8 - bitoffset`, and on success the buffer
records the requested bitlength and `offset mod 8`. -/
theorem claim_C6_file_creation :
    ∀ (src : Bytes) (bl off : Nat),
      (FileArray.init src (some bl) off = .error .fileTooShort ↔
        (bl : Int) > ((src.length : Int) - (off / 8 : Nat)) * 8 - (off % 8 : Nat)) ∧
      (∀ f, FileArray.init src (some bl) off = .ok f → f.bitlength = bl ∧ f.offset = off % 8) := by
  intro src bl off
  have heq : FileArray.init src (some bl) off =
      if (((bl + off % 8 + 7) / 8 : Nat) : Int) > (src.length : Int) - ((off / 8 : Nat) : Int)
      then .error .fileTooShort
      else .ok ⟨src, (bl + off % 8 + 7) / 8, bl, off / 8, off % 8⟩ := rfl
  rw [heq]
  by_cases hc : (((bl + off % 8 + 7) / 8 : Nat) : Int) > (src.length : Int) - ((off / 8 : Nat) : Int)
  · rw [if_pos hc]
    refine ⟨⟨fun _ => by omega, fun _ => rfl⟩, ?_⟩
    intro f h
    exact Except.noConfusion h
  · rw [if_neg hc]
    refine ⟨⟨fun h => Except.noConfusion h, fun h => absurd (by omega : (((bl + off % 8 + 7) / 8 : Nat) : Int) > (src.length : Int) - ((off / 8 : Nat) : Int)) hc⟩, ?_⟩
    intro f h
    cases h
    exact ⟨rfl, rfl⟩

theorem claim_C6_witness :
    FileArray.init [1, 2] (some 8) 4 = .ok (FileArray.mk [1, 2] 2 8 0 4) ∧
    (FileArray.mk [1, 2] 2 8 0 4).bitlength = 8 ∧
    (FileArray.mk [1, 2] 2 8 0 4).offset = 4 % 8 :=
  ⟨by decide, (claim_C6_file_creation [1, 2] 8 4).2 (FileArray.mk [1, 2] 2 8 0 4) (by decide)⟩

/-- Claim C10 (confirmed): the buffer returned by `offsetcopy` never shares
storage with its source `s`: it lives in a freshly allocated cell in every
code path, so each mutator applied to it (setbit, unsetbit, invertbit,
setbyte, setbyteslice, appendarray, prependarray) leaves `s`'s stored
bytes, offset and bitlength unchanged, each mutator applied to `s` leaves
the copy unchanged, and a file-backed source likewise yields a fresh cell
while disturbing no existing cell. -/
theorem claim_C10_offsetcopy_fresh_storage :
    ∀ (st st2 : Store) (s c : HByteArray) (n : Nat),
      s.ref < st.cells.length → offsetcopyH st s n = (st2, c) →
      (c.ref ≠ s.ref ∧ derefH st2 s = derefH st s) ∧
      ((∀ pos, derefH (setbitH st2 c pos) s = derefH st2 s) ∧
       (∀ pos, derefH (unsetbitH st2 c pos) s = derefH st2 s) ∧
       (∀ pos, derefH (invertbitH st2 c pos) s = derefH st2 s) ∧
       (∀ pos v, derefH (setbyteH st2 c pos v) s = derefH st2 s) ∧
       (∀ x y v, derefH (setbytesliceH st2 c x y v) s = derefH st2 s) ∧
       (∀ o st3 c2, appendarrayH st2 c o = some (st3, c2) → derefH st3 s = derefH st2 s) ∧
       (∀ o st3 c2, prependarrayH st2 c o = some (st3, c2) → derefH st3 s = derefH st2 s)) ∧
      ((∀ pos, derefH (setbitH st2 s pos) c = derefH st2 c) ∧
       (∀ pos, derefH (unsetbitH st2 s pos) c = derefH st2 c) ∧
       (∀ pos, derefH (invertbitH st2 s pos) c = derefH st2 c) ∧
       (∀ pos v, derefH (setbyteH st2 s pos v) c = derefH st2 c) ∧
       (∀ x y v, derefH (setbytesliceH st2 s x y v) c = derefH st2 c) ∧
       (∀ o st3 s2, appendarrayH st2 s o = some (st3, s2) → derefH st3 c = derefH st2 c) ∧
       (∀ o st3 s2, prependarrayH st2 s o = some (st3, s2) → derefH st3 c = derefH st2 c)) ∧
      (∀ (f : FileArray) (st4 : Store) (cf : HByteArray),
        offsetcopyFileH st f n = (st4, cf) →
        cf.ref = st.cells.length ∧
        ∀ h : HByteArray, h.ref < st.cells.length → derefH st4 h = derefH st h) := by
  intro st st2 s c n hs hoc
  simp only [offsetcopyH, Prod.mk.injEq] at hoc
  obtain ⟨hst2, hc⟩ := hoc
  subst hst2
  subst hc
  have hne : (HByteArray.mk st.cells.length (offsetcopy (derefH st s) n).bitlength
      (offsetcopy (derefH st s) n).offset).ref ≠ s.ref := by
    dsimp only
    omega
  have hne2 : s.ref ≠ (HByteArray.mk st.cells.length (offsetcopy (derefH st s) n).bitlength
      (offsetcopy (derefH st s) n).offset).ref := fun h => hne h.symm
  set c := HByteArray.mk st.cells.length (offsetcopy (derefH st s) n).bitlength
    (offsetcopy (derefH st s) n).offset with hcdef
  set st2 := st.alloc (offsetcopy (derefH st s) n).rawarray with hst2def
  have hslt2 : s.ref < st2.cells.length := by
    rw [hst2def]
    unfold Store.alloc
    simp only [List.length_append, List.length_cons, List.length_nil]
    omega
  have hclt2 : c.ref < st2.cells.length := by
    rw [hst2def, hcdef]
    unfold Store.alloc
    simp only [List.length_append, List.length_cons, List.length_nil]
    omega
  refine ⟨⟨hne, derefH_alloc st s hs _⟩, ⟨?_, ?_, ?_, ?_, ?_, ?_, ?_⟩,
    ⟨?_, ?_, ?_, ?_, ?_, ?_, ?_⟩, ?_⟩
  · intro pos
    unfold setbitH
    exact derefH_write_ne st2 s hne _
  · intro pos
    unfold unsetbitH
    exact derefH_write_ne st2 s hne _
  · intro pos
    unfold invertbitH
    exact derefH_write_ne st2 s hne _
  · intro pos v
    unfold setbyteH
    exact derefH_write_ne st2 s hne _
  · intro x y v
    unfold setbytesliceH
    exact derefH_write_ne st2 s hne _
  · intro o st3 c2 h
    unfold appendarrayH at h
    split at h
    · exact Option.noConfusion h
    · simp only [Option.some.injEq, Prod.mk.injEq] at h
      rw [← h.1]
      exact derefH_write_ne st2 s hne _
  · intro o st3 c2 h
    unfold prependarrayH at h
    split at h
    · simp only [Option.some.injEq, Prod.mk.injEq] at h
      rw [← h.1]
    · split at h
      · exact Option.noConfusion h
      · simp only [Option.some.injEq, Prod.mk.injEq] at h
        rw [← h.1]
        exact derefH_alloc st2 s hslt2 _
  · intro pos
    unfold setbitH
    exact derefH_write_ne st2 c hne2 _
  · intro pos
    unfold unsetbitH
    exact derefH_write_ne st2 c hne2 _
  · intro pos
    unfold invertbitH
    exact derefH_write_ne st2 c hne2 _
  · intro pos v
    unfold setbyteH
    exact derefH_write_ne st2 c hne2 _
  · intro x y v
    unfold setbytesliceH
    exact derefH_write_ne st2 c hne2 _
  · intro o st3 s2 h
    unfold appendarrayH at h
    split at h
    · exact Option.noConfusion h
    · simp only [Option.some.injEq, Prod.mk.injEq] at h
      rw [← h.1]
      exact derefH_write_ne st2 c hne2 _
  · intro o st3 s2 h
    unfold prependarrayH at h
    split at h
    · simp only [Option.some.injEq, Prod.mk.injEq] at h
      rw [← h.1]
    · split at h
      · exact Option.noConfusion h
      · simp only [Option.some.injEq, Prod.mk.injEq] at h
        rw [← h.1]
        exact derefH_alloc st2 c hclt2 _
  · intro f st4 cf h
    simp only [offsetcopyFileH, Prod.mk.injEq] at h
    obtain ⟨h1, h2⟩ := h
    refine ⟨by rw [← h2], ?_⟩
    intro hb hlt
    rw [← h1]
    exact derefH_alloc st hb hlt _

theorem claim_C10_witness :
    (HByteArray.mk 0 8 0).ref < (Store.mk [[1, 2]]).cells.length ∧
    offsetcopyH (Store.mk [[1, 2]]) (HByteArray.mk 0 8 0) 3 =
      (Store.mk [[1, 2], [0, 32]], HByteArray.mk 1 8 3) ∧
    (HByteArray.mk 1 8 3).ref ≠ (HByteArray.mk 0 8 0).ref ∧
    derefH (Store.mk [[1, 2], [0, 32]]) (HByteArray.mk 0 8 0) =
      derefH (Store.mk [[1, 2]]) (HByteArray.mk 0 8 0) :=
  ⟨by decide, by decide,
    (claim_C10_offsetcopy_fresh_storage (Store.mk [[1, 2]]) (Store.mk [[1, 2], [0, 32]])
      (HByteArray.mk 0 8 0) (HByteArray.mk 1 8 3) 3 (by decide) (by decide)).1⟩

end Bitstore
